import Mathlib

/-!
# EcellCheckin: the check-in reconciliation core of `src/App.jsx`

A shallow embedding of the pure and state-passing parts of the admin console:

* `parseScannedText` (the ticket id normaliser),
* `fetchData` (the roster indexer: lookup index, display list, counters),
* `handleCheckIn` and `toggleCheckIn` (the check-in reconciler),
* `filteredList` (the list/search view model).

Modelling conventions.

* A JavaScript string is a `List Char` (`Str`).  Case conversion is modelled on
  the ASCII letters; every other character is left unchanged.
* `String.prototype.trim` removes the ECMAScript `WhiteSpace` and
  `LineTerminator` code points.
* `JSON.parse` is a character-level pushdown automaton for the JSON grammar,
  run once over the text; it needs no fuel.
* A thrown exception is the `Except.error` result.
-/

namespace EcellCheckin

/-- JavaScript strings, as sequences of characters. -/
abbrev Str := List Char

/-- Exceptions that escape to the caller. -/
inductive JsError where
  | typeError
  deriving DecidableEq, Repr, Inhabited

/-! ## String primitives -/

/-- ECMAScript `WhiteSpace` and `LineTerminator` code points (what `trim` strips). -/
def isWhiteSpace (c : Char) : Bool :=
  let n := c.toNat
  n == 0x09 || n == 0x0A || n == 0x0B || n == 0x0C || n == 0x0D || n == 0x20 ||
  n == 0xA0 || n == 0x1680 || (0x2000 ≤ n && n ≤ 0x200A) || n == 0x2028 ||
  n == 0x2029 || n == 0x202F || n == 0x205F || n == 0x3000 || n == 0xFEFF

/-- Models `s.trim()`. -/
def trim (s : Str) : Str :=
  (s.dropWhile isWhiteSpace).rdropWhile isWhiteSpace

/-- Upper-case one character (ASCII letters). -/
def upperChar (c : Char) : Char :=
  if 97 ≤ c.toNat ∧ c.toNat ≤ 122 then Char.ofNat (c.toNat - 32) else c

/-- Lower-case one character (ASCII letters). -/
def lowerChar (c : Char) : Char :=
  if 65 ≤ c.toNat ∧ c.toNat ≤ 90 then Char.ofNat (c.toNat + 32) else c

/-- Models `s.toUpperCase()`. -/
def toUpperCase (s : Str) : Str := s.map upperChar

/-- Models `s.toLowerCase()`. -/
def toLowerCase (s : Str) : Str := s.map lowerChar

/-- Models `s.startsWith(p)`. -/
def startsWith (s p : Str) : Bool := p.isPrefixOf s

/-- Models `s.endsWith(p)`. -/
def endsWith (s p : Str) : Bool := p.isSuffixOf s

/-- Models `s.includes(p)`: `p` occurs in `s` as a contiguous substring. -/
def includes : Str → Str → Bool
  | [], p => p.isEmpty
  | c :: cs, p => p.isPrefixOf (c :: cs) || includes cs p

/-- Models `s.split(sep)` for a one-character separator. -/
def split (sep : Char) : Str → List Str
  | [] => [[]]
  | c :: cs =>
    if c = sep then [] :: split sep cs
    else match split sep cs with
      | [] => [[c]]
      | p :: ps => (c :: p) :: ps

/-- Models `parts[parts.length - 1]` of a split: the text after the last separator. -/
def lastPart (sep : Char) (s : Str) : Str :=
  (split sep s).getLastD []

/-- Characters kept by `.replace(/[^A-Z0-9]/g, '')`. -/
def isUpperAlnum (c : Char) : Bool :=
  (65 ≤ c.toNat && c.toNat ≤ 90) || (48 ≤ c.toNat && c.toNat ≤ 57)

/-- Models `s.replace(/^IFI2026[-_]?/i, '')`: drop the event prefix, matched without
regard to ASCII case, and one following `-` or `_` when present. -/
def replaceEventPrefix (s : Str) : Str :=
  if toUpperCase (s.take 7) = ['I', 'F', 'I', '2', '0', '2', '6'] then
    match s.drop 7 with
    | [] => []
    | c :: rest => if c = '-' ∨ c = '_' then rest else c :: rest
  else s

/-! ## JSON.parse -/

/-- Parsed JSON values.  A number is kept as sign, decimal mantissa and decimal
exponent: it denotes `± mant * 10 ^ exp`. -/
inductive JVal where
  | null
  | bool (b : Bool)
  | num (neg : Bool) (mant : Nat) (exp : Int)
  | str (s : Str)
  | arr (xs : List JVal)
  | obj (kvs : List (Str × JVal))
  deriving Inhabited

/-- An array or object under construction. -/
inductive Frame where
  | arr (done : List JVal)
  | obj (done : List (Str × JVal)) (key : Option Str)
  deriving Inhabited

/-- Position inside a number literal. -/
inductive NumPhase where
  | minus | zero | int | dot | frac | e | esign | exp
  deriving DecidableEq, Repr, Inhabited

/-- Digits of a number literal read so far. -/
structure NumAcc where
  neg : Bool := false
  mant : Nat := 0
  fracLen : Nat := 0
  expNeg : Bool := false
  expVal : Nat := 0
  phase : NumPhase

/-- What the parser expects next. -/
inductive Mode where
  | value
  | valueOrEnd
  | keyOrEnd
  | key
  | colon
  | after
  | str (isKey : Bool) (acc : Str)
  | esc (isKey : Bool) (acc : Str)
  | uni (isKey : Bool) (acc : Str) (code : Nat) (seen : Nat)
  | num (a : NumAcc)
  | lit (rest : Str) (v : JVal)

/-- Parser state: open containers (innermost first), the mode, and the finished
top-level value. -/
structure PState where
  stack : List Frame
  mode : Mode
  result : Option JVal

/-- JSON insignificant whitespace. -/
def isJsonWs (c : Char) : Bool :=
  c = ' ' || c = '\t' || c = '\n' || c = '\r'

/-- Value of a decimal digit. -/
def digitVal (c : Char) : Option Nat :=
  if 48 ≤ c.toNat ∧ c.toNat ≤ 57 then some (c.toNat - 48) else none

/-- Value of a hexadecimal digit. -/
def hexVal (c : Char) : Option Nat :=
  if 48 ≤ c.toNat ∧ c.toNat ≤ 57 then some (c.toNat - 48)
  else if 97 ≤ c.toNat ∧ c.toNat ≤ 102 then some (c.toNat - 87)
  else if 65 ≤ c.toNat ∧ c.toNat ≤ 70 then some (c.toNat - 55)
  else none

/-- A value has been read: hand it to the innermost open container, or make it
the top-level result. -/
def complete (stack : List Frame) (result : Option JVal) (v : JVal) : Option PState :=
  match stack with
  | [] =>
    match result with
    | none => some { stack := [], mode := .after, result := some v }
    | some _ => none
  | .arr done :: rest => some { stack := .arr (v :: done) :: rest, mode := .after, result := result }
  | .obj done (some k) :: rest =>
    some { stack := .obj ((k, v) :: done) none :: rest, mode := .after, result := result }
  | .obj _ none :: _ => none

/-- First character of a value. -/
def startValue (st : PState) (c : Char) : Option PState :=
  if c = '{' then some { st with stack := .obj [] none :: st.stack, mode := .keyOrEnd }
  else if c = '[' then some { st with stack := .arr [] :: st.stack, mode := .valueOrEnd }
  else if c = '"' then some { st with mode := .str false [] }
  else if c = '-' then some { st with mode := .num { neg := true, phase := .minus } }
  else if c = '0' then some { st with mode := .num { phase := .zero } }
  else if c = 't' then some { st with mode := .lit ['r', 'u', 'e'] (.bool true) }
  else if c = 'f' then some { st with mode := .lit ['a', 'l', 's', 'e'] (.bool false) }
  else if c = 'n' then some { st with mode := .lit ['u', 'l', 'l'] .null }
  else match digitVal c with
    | some d => some { st with mode := .num { mant := d, phase := .int } }
    | none => none

/-- A character after a complete value: separator, closing bracket or whitespace. -/
def stepAfter (st : PState) (c : Char) : Option PState :=
  if isJsonWs c then some st
  else if c = ',' then
    match st.stack with
    | .arr _ :: _ => some { st with mode := .value }
    | .obj _ none :: _ => some { st with mode := .key }
    | _ => none
  else if c = ']' then
    match st.stack with
    | .arr done :: rest => complete rest st.result (.arr done.reverse)
    | _ => none
  else if c = '}' then
    match st.stack with
    | .obj done none :: rest => complete rest st.result (.obj done.reverse)
    | _ => none
  else none

/-- The number literal read so far, when it is a complete literal. -/
def numValue (a : NumAcc) : Option JVal :=
  match a.phase with
  | .zero | .int | .frac | .exp =>
    some (.num a.neg a.mant ((if a.expNeg then -(a.expVal : Int) else a.expVal) - a.fracLen))
  | _ => none

/-- A character that does not continue the number: the number ends here and the
character is read as what follows a value. -/
def endNum (st : PState) (a : NumAcc) (c : Char) : Option PState :=
  match numValue a with
  | some v =>
    match complete st.stack st.result v with
    | some st1 => stepAfter st1 c
    | none => none
  | none => none

/-- One character inside a number literal. -/
def stepNum (st : PState) (a : NumAcc) (c : Char) : Option PState :=
  match a.phase with
  | .minus =>
    if c = '0' then some { st with mode := .num { a with phase := .zero } }
    else match digitVal c with
      | some d => some { st with mode := .num { a with mant := d, phase := .int } }
      | none => none
  | .zero =>
    if c = '.' then some { st with mode := .num { a with phase := .dot } }
    else if c = 'e' ∨ c = 'E' then some { st with mode := .num { a with phase := .e } }
    else endNum st a c
  | .int =>
    match digitVal c with
    | some d => some { st with mode := .num { a with mant := a.mant * 10 + d } }
    | none =>
      if c = '.' then some { st with mode := .num { a with phase := .dot } }
      else if c = 'e' ∨ c = 'E' then some { st with mode := .num { a with phase := .e } }
      else endNum st a c
  | .dot =>
    match digitVal c with
    | some d =>
      some { st with mode := .num { a with mant := a.mant * 10 + d,
                                            fracLen := a.fracLen + 1, phase := .frac } }
    | none => none
  | .frac =>
    match digitVal c with
    | some d =>
      some { st with mode := .num { a with mant := a.mant * 10 + d, fracLen := a.fracLen + 1 } }
    | none =>
      if c = 'e' ∨ c = 'E' then some { st with mode := .num { a with phase := .e } }
      else endNum st a c
  | .e =>
    if c = '+' then some { st with mode := .num { a with phase := .esign } }
    else if c = '-' then some { st with mode := .num { a with expNeg := true, phase := .esign } }
    else match digitVal c with
      | some d => some { st with mode := .num { a with expVal := d, phase := .exp } }
      | none => none
  | .esign =>
    match digitVal c with
    | some d => some { st with mode := .num { a with expVal := d, phase := .exp } }
    | none => none
  | .exp =>
    match digitVal c with
    | some d => some { st with mode := .num { a with expVal := a.expVal * 10 + d } }
    | none => endNum st a c

/-- The closing quote of a string: a key is stored in its object, a value is
completed. -/
def endStr (st : PState) (isKey : Bool) (s : Str) : Option PState :=
  if isKey then
    match st.stack with
    | .obj done none :: rest => some { st with stack := .obj done (some s) :: rest, mode := .colon }
    | _ => none
  else complete st.stack st.result (.str s)

/-- The character denoted by a one-letter escape. -/
def escChar (c : Char) : Option Char :=
  if c = '"' then some '"'
  else if c = '\\' then some '\\'
  else if c = '/' then some '/'
  else if c = 'b' then some (Char.ofNat 8)
  else if c = 'f' then some (Char.ofNat 12)
  else if c = 'n' then some '\n'
  else if c = 'r' then some '\r'
  else if c = 't' then some '\t'
  else none

/-- One step of the JSON automaton.  An escape `\uXXXX` in the surrogate range,
which a `Char` cannot hold, is kept as U+0000. -/
def step (st : PState) (c : Char) : Option PState :=
  match st.mode with
  | .value => if isJsonWs c then some st else startValue st c
  | .valueOrEnd =>
    if isJsonWs c then some st
    else if c = ']' then
      match st.stack with
      | .arr _ :: rest => complete rest st.result (.arr [])
      | _ => none
    else startValue st c
  | .keyOrEnd =>
    if isJsonWs c then some st
    else if c = '}' then
      match st.stack with
      | .obj _ none :: rest => complete rest st.result (.obj [])
      | _ => none
    else if c = '"' then some { st with mode := .str true [] }
    else none
  | .key =>
    if isJsonWs c then some st
    else if c = '"' then some { st with mode := .str true [] }
    else none
  | .colon =>
    if isJsonWs c then some st
    else if c = ':' then some { st with mode := .value }
    else none
  | .after => stepAfter st c
  | .str isKey acc =>
    if c = '"' then endStr st isKey acc.reverse
    else if c = '\\' then some { st with mode := .esc isKey acc }
    else if c.toNat < 32 then none
    else some { st with mode := .str isKey (c :: acc) }
  | .esc isKey acc =>
    if c = 'u' then some { st with mode := .uni isKey acc 0 0 }
    else match escChar c with
      | some x => some { st with mode := .str isKey (x :: acc) }
      | none => none
  | .uni isKey acc code seen =>
    match hexVal c with
    | some d =>
      if seen = 3 then some { st with mode := .str isKey (Char.ofNat (code * 16 + d) :: acc) }
      else some { st with mode := .uni isKey acc (code * 16 + d) (seen + 1) }
    | none => none
  | .num a => stepNum st a c
  | .lit rest v =>
    match rest with
    | [] => none
    | [x] => if c = x then complete st.stack st.result v else none
    | x :: y :: more => if c = x then some { st with mode := .lit (y :: more) v } else none

/-- End of input: exactly one complete top-level value must have been read. -/
def finish (st : PState) : Option JVal :=
  match st.mode, st.stack, st.result with
  | .after, [], some v => some v
  | .num a, [], none => numValue a
  | _, _, _ => none

/-- Models `JSON.parse(text)`; `none` stands for the `SyntaxError` it throws. -/
def jsonParse (text : Str) : Option JVal :=
  match text.foldlM step { stack := [], mode := .value, result := none } with
  | some st => finish st
  | none => none

/-- Models `json.key` on a parsed value: the last binding of `key` in an object,
`none` (undefined) otherwise. -/
def getProp (json : JVal) (key : Str) : Option JVal :=
  match json with
  | .obj kvs => (kvs.reverse.find? (fun kv => kv.1 = key)).map Prod.snd
  | _ => none

/-- A number literal denotes zero: no non-zero digit, or a magnitude that rounds
to zero in binary64 (at most `2 ^ (-1075)`). -/
def numIsZero (mant : Nat) (exp : Int) : Bool :=
  mant = 0 || (exp < 0 && mant * 2 ^ 1075 ≤ 10 ^ exp.natAbs)

/-- JavaScript truthiness of a property read (`none` is undefined). -/
def truthy : Option JVal → Bool
  | none => false
  | some .null => false
  | some (.bool b) => b
  | some (.num _ mant exp) => !numIsZero mant exp
  | some (.str s) => !s.isEmpty
  | some (.arr _) => true
  | some (.obj _) => true

/-! ## Ticket id normaliser -/

/-- Lines 215-223: for a URL or path, the last segment between slashes that is
not blank; the text itself when every segment is blank. -/
def lastUrlSegment (clean : Str) : Str :=
  if includes clean ['h', 't', 't', 'p'] || includes clean ['/'] then
    match (split '/' clean).reverse.find? (fun p => decide ((trim p).length > 0)) with
    | some p => p
    | none => clean
  else clean

/-- Lines 233-242, run on a string: text after the last `-`, then after the last
`=`, upper-cased, with everything outside `A-Z0-9` removed. -/
def finishClean (clean : Str) : Str :=
  let c1 := if includes clean ['-'] then lastPart '-' clean else clean
  let c2 := if includes c1 ['='] then lastPart '=' c1 else c1
  (toUpperCase c2).filter isUpperAlnum

/-- Lines 233-242 on the value picked out of the JSON object.  Only a string has
`includes`, `split` and `toUpperCase`: on a number, boolean or object
`clean.includes` is not a function, and on an array `includes` exists but the
following `split` or `toUpperCase` does not, so every other value raises a
`TypeError`. -/
def finishValue : JVal → Except JsError Str
  | .str s => .ok (finishClean s)
  | _ => .error .typeError

/-- Lines 211-213: the event prefix is removed when the upper-cased text starts
with it. -/
def stripEventPrefix (clean : Str) : Str :=
  if startsWith (toUpperCase clean) ['I', 'F', 'I', '2', '0', '2', '6'] then
    replaceEventPrefix clean
  else clean

/-- Lines 225-242: the JSON step followed by the final clean-up.  The `try`
covers only the parse and the two assignments. -/
def parseJsonAndFinish (clean : Str) : Except JsError Str :=
  if startsWith clean ['{'] && endsWith clean ['}'] then
    match jsonParse clean with
    | some json =>
      if truthy (getProp json "ticketId".toList) then
        match getProp json "ticketId".toList with
        | some v => finishValue v
        | none => .ok (finishClean clean)
      else if truthy (getProp json "id".toList) then
        match getProp json "id".toList with
        | some v => finishValue v
        | none => .ok (finishClean clean)
      else .ok (finishClean clean)
    | none => .ok (finishClean clean)
  else .ok (finishClean clean)

/-- Models `parseScannedText` (lines 207-243). -/
def parseScannedText (text : Str) : Except JsError Str :=
  if text.isEmpty then .ok []
  else parseJsonAndFinish (lastUrlSegment (stripEventPrefix (trim text)))

/-! ## Data model -/

/-- A store timestamp; `seconds` is what sorting and display read. -/
structure Timestamp where
  seconds : Int
  nanoseconds : Nat
  deriving DecidableEq, Repr, Inhabited

/-- A member sub-record of a team document.  An absent field is `none`; the
`checkedIn` flag is only ever read through its truthiness, so it is a `Bool`. -/
structure Member where
  name : Option Str
  email : Option Str
  phone : Option Str
  college : Option Str
  ticketId : Option Str
  status : Option Str
  checkedIn : Bool
  checkInTime : Option Timestamp
  memberNumber : Option Nat
  deriving DecidableEq, Repr, Inhabited

/-- The fields of a team document (`docSnap.data()`): the leader's fields and the
member sequence (a missing or non-array `members` is the empty sequence). -/
structure TeamData where
  name : Option Str
  email : Option Str
  phone : Option Str
  college : Option Str
  team : Option Str
  ticketId : Option Str
  status : Option Str
  checkedIn : Bool
  checkInTime : Option Timestamp
  members : List Member
  deriving DecidableEq, Repr, Inhabited

/-- A document snapshot returned by the store: its id and its fields. -/
structure DocSnap where
  id : Str
  data : TeamData
  deriving DecidableEq, Repr, Inhabited

/-- The flattened attendee record (`entry.data`, and the items of the list view). -/
structure AttendeeRecord where
  name : Option Str
  email : Option Str
  phone : Option Str
  college : Option Str
  team : Option Str
  status : Option Str
  checkedIn : Bool
  checkInTime : Option Timestamp
  ticketId : Str
  memberNumber : Option Nat
  deriving DecidableEq, Repr, Inhabited

/-- An index entry (lines 63-79 and 90-107). -/
structure Entry where
  docId : Str
  isLeader : Bool
  memberIndex : Int
  data : AttendeeRecord
  fullDoc : TeamData
  deriving DecidableEq, Repr, Inhabited

/-- The lookup index, a JavaScript `Map`: bindings in insertion order. -/
abbrev DataMap := List (Str × Entry)

/-- Models `map.has(key)`. -/
def mapHas (m : DataMap) (key : Str) : Bool :=
  m.any (fun kv => kv.1 = key)

/-- Models `map.get(key)`. -/
def mapGet (m : DataMap) (key : Str) : Option Entry :=
  match m with
  | [] => none
  | (k, e) :: rest => if k = key then some e else mapGet rest key

/-- Models `map.set(key, entry)`: an existing key keeps its place and takes the new
value, a new key goes to the end. -/
def mapSet (m : DataMap) (key : Str) (entry : Entry) : DataMap :=
  match m with
  | [] => [(key, entry)]
  | (k, e) :: rest => if k = key then (key, entry) :: rest else (k, e) :: mapSet rest key entry

/-- An item of the list view.  The array built by `fetchData` holds the very
objects stored as `entry.data` in the index; the handlers later replace items by
fresh copies `{ ...item, ... }`.  `entryData key` is the data object of the entry
stored under `key`, `copy r` a separate object. -/
inductive DisplayItem where
  | entryData (key : Str)
  | copy (r : AttendeeRecord)
  deriving DecidableEq, Repr, Inhabited

/-- The counters of the header. -/
structure Stats where
  total : Int
  checkedIn : Int
  deriving DecidableEq, Repr, Inhabited

/-- The session state: `dataMap`, `dataList` and `stats`. -/
structure AppState where
  dataMap : DataMap
  dataList : List DisplayItem
  stats : Stats
  deriving DecidableEq, Repr, Inhabited

/-- The record an item of the list view currently shows. -/
def deref (m : DataMap) : DisplayItem → Option AttendeeRecord
  | .entryData key => (mapGet m key).map (fun e => e.data)
  | .copy r => some r

/-- The display list as a sequence of records. -/
def displayRecords (st : AppState) : List AttendeeRecord :=
  st.dataList.filterMap (deref st.dataMap)

/-- The records of the lookup index, in iteration order (`map.values()`). -/
def indexRecords (st : AppState) : List AttendeeRecord :=
  st.dataMap.map (fun kv => kv.2.data)

/-! ## Roster indexer -/

/-- Truthiness of an optional string field: present and not empty. -/
def strTruthy : Option Str → Bool
  | some s => !s.isEmpty
  | none => false

/-- Models `cleanId` (line 52). -/
def cleanId (id : Str) : Str := toUpperCase (trim id)

/-- The accumulators of `fetchData`: `map`, `totalCount`, `checkedInCount`. -/
structure Acc where
  map : DataMap
  totalCount : Int
  checkedInCount : Int
  deriving DecidableEq, Repr, Inhabited

/-- Lines 59-81: the leader of one document. -/
def processLeader (docId : Str) (data : TeamData) (acc : Acc) : Acc :=
  match data.ticketId with
  | none => acc
  | some tid =>
    if tid.isEmpty then acc
    else
      let entry : Entry :=
        { docId := docId
          isLeader := true
          memberIndex := -1
          data :=
            { name := data.name
              email := data.email
              phone := data.phone
              college := data.college
              team := data.team
              status := data.status
              checkedIn := data.checkedIn
              checkInTime := data.checkInTime
              ticketId := tid
              memberNumber := none }
          fullDoc := data }
      { map := mapSet acc.map (cleanId tid) entry
        totalCount := acc.totalCount + 1
        checkedInCount := if data.checkedIn then acc.checkedInCount + 1 else acc.checkedInCount }

/-- Lines 86-109: one member of one document, at position `index`. -/
def processMember (docId : Str) (data : TeamData) (acc : Acc) (member : Member) (index : Nat) :
    Acc :=
  match member.ticketId with
  | none => acc
  | some tid =>
    if tid.isEmpty then acc
    else
      let entry : Entry :=
        { docId := docId
          isLeader := false
          memberIndex := index
          data :=
            { name := member.name
              email := member.email
              phone := member.phone
              college := if strTruthy member.college then member.college else data.college
              team := data.team
              status := if strTruthy member.status then member.status else some "pending".toList
              checkedIn := member.checkedIn
              checkInTime := member.checkInTime
              ticketId := tid
              memberNumber := member.memberNumber }
          fullDoc := data }
      { map := mapSet acc.map (cleanId tid) entry
        totalCount := acc.totalCount + 1
        checkedInCount := if member.checkedIn then acc.checkedInCount + 1 else acc.checkedInCount }

/-- Lines 85-110: `data.members.forEach`, from position `index` on. -/
def processMembers (docId : Str) (data : TeamData) : Acc → Nat → List Member → Acc
  | acc, _, [] => acc
  | acc, index, member :: rest =>
    processMembers docId data (processMember docId data acc member index) (index + 1) rest

/-- Lines 54-112: one document. -/
def processDoc (acc : Acc) (docSnap : DocSnap) : Acc :=
  processMembers docSnap.id docSnap.data (processLeader docSnap.id docSnap.data acc) 0
    docSnap.data.members

/-- Models `a.checkInTime?.seconds || 0`. -/
def timeKey (r : AttendeeRecord) : Int :=
  match r.checkInTime with
  | some t => t.seconds
  | none => 0

/-- The comparator of lines 117-128. -/
def compareRecords (a b : AttendeeRecord) : Int :=
  if a.checkedIn && !b.checkedIn then -1
  else if !a.checkedIn && b.checkedIn then 1
  else if a.checkedIn && b.checkedIn then timeKey b - timeKey a
  else 0

/-- The order the comparator induces: `a` may stand before `b`. -/
def recLe (a b : AttendeeRecord) : Prop := compareRecords a b ≤ 0

instance : DecidableRel recLe := fun a b => by unfold recLe; infer_instance

/-- Models `Array.prototype.sort(compareRecords)`: the sort is stable, and for this
comparator the stable sorted arrangement is unique; it is computed here by
insertion. -/
def sortRecords (l : List AttendeeRecord) : List AttendeeRecord :=
  l.insertionSort recLe

/-- The same sort on index bindings, compared by their `data`. -/
def sortEntries (m : DataMap) : DataMap :=
  m.insertionSort (fun a b => recLe a.2.data b.2.data)

/-- Models `fetchData` (lines 43-137) on the documents the query returned.  The sorted
array holds the entries' own `data` objects, hence `entryData` items. -/
def fetchData (docs : List DocSnap) : AppState :=
  let acc := docs.foldl processDoc { map := [], totalCount := 0, checkedInCount := 0 }
  { dataMap := acc.map
    dataList := (sortEntries acc.map).map (fun kv => DisplayItem.entryData kv.1)
    stats := { total := acc.totalCount, checkedIn := acc.checkedInCount } }

/-! ## Check-in reconciler -/

/-- The fields written by `updateDoc`. -/
inductive Payload where
  | leader (checkedIn : Bool) (checkInTime : Option Timestamp) (status : Str)
  | members (newMembers : List Member)
  deriving DecidableEq, Repr, Inhabited

/-- One call `updateDoc(doc(db, COLLECTION_NAME, docId), payload)`. -/
structure RemoteUpdate where
  docId : Str
  payload : Payload
  deriving DecidableEq, Repr, Inhabited

/-- What `setScanResult` shows. -/
inductive ScanResult where
  | notFound (tid : Str)
  | alreadyCheckedIn (since : Option Timestamp) (attendee : AttendeeRecord)
  | success (attendee : AttendeeRecord)
  | systemError
  deriving DecidableEq, Repr, Inhabited

/-- The effect of one `handleCheckIn`. -/
structure CheckInOutcome where
  state : AppState
  scanResult : ScanResult
  updates : List RemoteUpdate
  deriving DecidableEq, Repr, Inhabited

/-- The effect of one `toggleCheckIn`; `alerted` is the `alert` of the catch block. -/
structure ToggleOutcome where
  state : AppState
  alerted : Bool
  updates : List RemoteUpdate
  deriving DecidableEq, Repr, Inhabited

/-- The function mapped over the list by the updater of `setDataList`:
`item => item.ticketId === ticketId ? { ...item, checkedIn, checkInTime } : item`.
React runs the updater after the synchronous part of the handler, so an item
that is an entry's data object is read in the index as the handler left it. -/
def updateItem (m : DataMap) (ticketId : Str) (checkedIn : Bool)
    (checkInTime : Option Timestamp) (item : DisplayItem) : DisplayItem :=
  match deref m item with
  | some r =>
    if r.ticketId = ticketId then
      .copy { r with checkedIn := checkedIn, checkInTime := checkInTime }
    else item
  | none => item

/-- The updater of `setDataList`: `prev.map(...)`. -/
def updateList (m : DataMap) (ticketId : Str) (checkedIn : Bool)
    (checkInTime : Option Timestamp) (prev : List DisplayItem) : List DisplayItem :=
  prev.map (updateItem m ticketId checkedIn checkInTime)

/-- Models `newMembers[memberIndex] = { ...newMembers[memberIndex], checkedIn,
checkInTime, status }` on a copy of `fullDoc.members`. -/
def newMembers (members : List Member) (memberIndex : Int) (checkedIn : Bool)
    (checkInTime : Option Timestamp) (status : Str) : List Member :=
  members.modify
    (fun m => { m with checkedIn := checkedIn, checkInTime := checkInTime, status := some status })
    memberIndex.toNat

/-- Lines 289-301 and 343-355: the payload for an entry. -/
def updatePayload (entry : Entry) (checkedIn : Bool) (checkInTime : Option Timestamp)
    (status : Str) : Payload :=
  if entry.isLeader then .leader checkedIn checkInTime status
  else .members (newMembers entry.fullDoc.members entry.memberIndex checkedIn checkInTime status)

/-- Lines 246-247: the trimmed, upper-cased scan when it is a key of the index,
the normalised scan otherwise. -/
def resolveTicket (m : DataMap) (ticketId : Str) : Except JsError Str :=
  let tid := toUpperCase (trim ticketId)
  if mapHas m tid then .ok tid else parseScannedText ticketId

/-- Models `handleCheckIn` (lines 245-315).  `now` is `Timestamp.now()`, `writeOk`
tells whether `updateDoc` resolves.  An exception of `parseScannedText` is not
caught and leaves the handler. -/
def handleCheckIn (st : AppState) (ticketId : Str) (now : Timestamp) (writeOk : Bool) :
    Except JsError CheckInOutcome :=
  match resolveTicket st.dataMap ticketId with
  | .error e => .error e
  | .ok tid =>
    match mapGet st.dataMap tid with
    | none => .ok { state := st, scanResult := .notFound tid, updates := [] }
    | some entry =>
      if entry.data.checkedIn then
        .ok { state := st
              scanResult := .alreadyCheckedIn entry.data.checkInTime entry.data
              updates := [] }
      else
        let data : AttendeeRecord :=
          { entry.data with
            checkedIn := true, checkInTime := some now, status := some "checked-in".toList }
        let newEntry : Entry := { entry with data := data }
        let dataMap := mapSet st.dataMap tid newEntry
        .ok { state :=
                { dataMap := dataMap
                  dataList := updateList dataMap data.ticketId true (some now) st.dataList
                  stats := { st.stats with checkedIn := st.stats.checkedIn + 1 } }
              scanResult := if writeOk then .success data else .systemError
              updates := [{ docId := entry.docId
                            payload := updatePayload entry true (some now) "checked-in".toList }] }

/-- Models `toggleCheckIn` (lines 317-364) on a record `item` of the list view.  When
`dataMap.get(item.ticketId)` is undefined, reading `entry.isLeader` raises inside
the `try`: the catch block alerts, nothing is written remotely, and the counter
and the list keep their optimistic update. -/
def toggleCheckIn (st : AppState) (item : AttendeeRecord) (now : Timestamp) (writeOk : Bool) :
    ToggleOutcome :=
  let shouldCheckIn := !item.checkedIn
  let checkInTime := if shouldCheckIn then some now else none
  let status := if shouldCheckIn then "checked-in".toList else "pending".toList
  let stats : Stats :=
    { st.stats with
      checkedIn := if shouldCheckIn then st.stats.checkedIn + 1 else st.stats.checkedIn - 1 }
  match mapGet st.dataMap item.ticketId with
  | some entry =>
    let data : AttendeeRecord :=
      { entry.data with checkedIn := shouldCheckIn, checkInTime := checkInTime, status := some status }
    let dataMap := mapSet st.dataMap item.ticketId { entry with data := data }
    { state :=
        { dataMap := dataMap
          dataList := updateList dataMap item.ticketId shouldCheckIn checkInTime st.dataList
          stats := stats }
      alerted := !writeOk
      updates := [{ docId := entry.docId
                    payload := updatePayload entry shouldCheckIn checkInTime status }] }
  | none =>
    { state :=
        { dataMap := st.dataMap
          dataList := updateList st.dataMap item.ticketId shouldCheckIn checkInTime st.dataList
          stats := stats }
      alerted := true
      updates := [] }

/-- Models `updateDoc` on the store's copy of a document: the named fields are
replaced, the others kept. -/
def applyPayload (doc : TeamData) : Payload → TeamData
  | .leader checkedIn checkInTime status =>
    { doc with checkedIn := checkedIn, checkInTime := checkInTime, status := some status }
  | .members ms => { doc with members := ms }

/-- The remote collection after one update. -/
def applyUpdate (store : List DocSnap) (u : RemoteUpdate) : List DocSnap :=
  store.map fun d => if d.id = u.docId then { d with data := applyPayload d.data u.payload } else d

/-! ## List/search view model -/

/-- The predicate of `filteredList` (lines 368-370).  `item.name` is read
without a guard: when the ticket id does not match and the name is absent,
`item.name.toLowerCase` raises a `TypeError`.  `item.team?.` yields undefined
for an absent team, which counts as no match. -/
def matchesQuery (item : AttendeeRecord) (searchQuery : Str) : Except JsError Bool :=
  if includes (toLowerCase item.ticketId) (toLowerCase searchQuery) then .ok true
  else
    match item.name with
    | none => .error .typeError
    | some name =>
      if includes (toLowerCase name) (toLowerCase searchQuery) then .ok true
      else
        match item.team with
        | none => .ok false
        | some team => .ok (includes (toLowerCase team) (toLowerCase searchQuery))

/-- Models `dataList.filter(...)` (lines 367-371), items visited in order. -/
def filteredList : List AttendeeRecord → Str → Except JsError (List AttendeeRecord)
  | [], _ => .ok []
  | item :: rest, searchQuery =>
    match matchesQuery item searchQuery with
    | .error e => .error e
    | .ok keep =>
      match filteredList rest searchQuery with
      | .error e => .error e
      | .ok tl => .ok (if keep then item :: tl else tl)

/-! ## Example inputs -/

/-- A member sub-record with the given ticket id, flag and timestamp. -/
def memberRec (ticketId : Option Str) (checkedIn : Bool) (checkInTime : Option Timestamp) :
    Member :=
  { name := some "Asha".toList, email := none, phone := none, college := none,
    ticketId := ticketId, status := none, checkedIn := checkedIn,
    checkInTime := checkInTime, memberNumber := some 2 }

/-- A team document with the given leader ticket id, flag, timestamp and members. -/
def teamDoc (id : Str) (ticketId : Option Str) (checkedIn : Bool)
    (checkInTime : Option Timestamp) (members : List Member) : DocSnap :=
  { id := id,
    data := { name := some "Ravi".toList, email := none, phone := none, college := none,
              team := some "Orion".toList, ticketId := ticketId, status := none,
              checkedIn := checkedIn, checkInTime := checkInTime, members := members } }

/-- One document without a leader ticket and with two members `M1` and `M2`,
nobody checked in. -/
def twoMemberDocs : List DocSnap :=
  [teamDoc "d1".toList none false none
    [memberRec (some "M1".toList) false none, memberRec (some "M2".toList) false none]]

/-- The `checkedIn` flags of the member sequence an update writes. -/
def payloadFlags : Payload → List Bool
  | .members ms => ms.map (fun m => m.checkedIn)
  | .leader _ _ _ => []

/-! ## Vocabulary of the statements -/

/-- The ASCII letters and digits. -/
def isAsciiAlnum (c : Char) : Bool :=
  (48 ≤ c.toNat && c.toNat ≤ 57) || (65 ≤ c.toNat && c.toNat ≤ 90) ||
  (97 ≤ c.toNat && c.toNat ≤ 122)

/-- The sixty-two ASCII letters and digits, listed. -/
def alnumChars : List Char :=
  "0123456789ABCDEFGHIJKLMNOPQRSTUVWXYZabcdefghijklmnopqrstuvwxyz".toList

/-- Every character is an ASCII letter or digit. -/
def AlnumStr (t : Str) : Prop := ∀ c ∈ t, isAsciiAlnum c = true

/-- What the pipeline carries once the scan ends in the ticket `t`. -/
def EndsInTicket (t u : Str) : Prop := u = t ∨ ∃ x, u = x ++ '-' :: t

/-- The scan text `{"ticketId":"t"}`. -/
def jsonTicketText (t : Str) : Str :=
  "\x7b\"ticketId\":\"".toList ++ t ++ "\"\x7d".toList

/-- An already canonical ticket key: trimmed and upper-case. -/
def IsCanonicalKey (x : Str) : Prop := trim x = x ∧ toUpperCase x = x

/-- The event prefix `IFI2026`. -/
def eventPrefix : Str := ['I', 'F', 'I', '2', '0', '2', '6']

/-- The keys of the lookup index, in iteration order. -/
def mapKeys (m : DataMap) : List Str := m.map Prod.fst

/-- The leader of a document, when it has a non-empty ticket id: the ticket id
and the `checkedIn` flag. -/
def leaderTicket (d : DocSnap) : List (Str × Bool) :=
  match d.data.ticketId with
  | some t => if t.isEmpty then [] else [(t, d.data.checkedIn)]
  | none => []

/-- The members of a document that have a non-empty ticket id. -/
def memberTickets (members : List Member) : List (Str × Bool) :=
  members.filterMap fun m =>
    match m.ticketId with
    | some t => if t.isEmpty then none else some (t, m.checkedIn)
    | none => none

/-- All leader records and member sub-records with a non-empty ticket id. -/
def ticketed (docs : List DocSnap) : List (Str × Bool) :=
  docs.flatMap fun d => leaderTicket d ++ memberTickets d.data.members

/-- The document of the example in the specification: leader `L1` not checked
in, member `M1` checked in, a second member without ticket id. -/
def specExampleDocs : List DocSnap :=
  [teamDoc "d1".toList (some "L1".toList) false none
    [memberRec (some "M1".toList) true none, memberRec none false none]]

/-- The accumulators `b` extend the accumulators `a` by the ticketed records `l`. -/
def Extends (a b : Acc) (l : List (Str × Bool)) : Prop :=
  b.totalCount = a.totalCount + l.length ∧
  b.checkedInCount = a.checkedInCount + l.countP (fun p => p.2) ∧
  (∀ k, k ∈ mapKeys b.map ↔ k ∈ mapKeys a.map ∨ k ∈ l.map (fun p => cleanId p.1)) ∧
  ((mapKeys a.map).Nodup → (mapKeys b.map).Nodup)

/-- The index-order example: leader `N` not checked in, then leader `A` checked
in without a timestamp. -/
def unstampedDocs : List DocSnap :=
  [teamDoc "d1".toList (some "N".toList) false none [],
   teamDoc "d2".toList (some "A".toList) true none []]

/-- A record that is checked in and has a timestamp. -/
def isStamped (r : AttendeeRecord) : Bool := r.checkedIn && r.checkInTime.isSome

/-- The checked-in version of a member sub-record written by `handleCheckIn`. -/
def checkedInMember (now : Timestamp) (m : Member) : Member :=
  { m with checkedIn := true, checkInTime := some now, status := some "checked-in".toList }

/-- The checked-in version of an attendee record. -/
def checkedInRecord (now : Timestamp) (r : AttendeeRecord) : AttendeeRecord :=
  { r with checkedIn := true, checkInTime := some now, status := some "checked-in".toList }

/-- The entry `e` stored under `k` describes the ticketed leader, or the ticketed
member at position `e.memberIndex`, of a document of `docs`. -/
def EntryOf (docs : List DocSnap) (k : Str) (e : Entry) : Prop :=
  k = cleanId e.data.ticketId ∧
  ∃ d ∈ docs, e.docId = d.id ∧ e.fullDoc = d.data ∧
    ((e.isLeader = true ∧ d.data.ticketId = some e.data.ticketId ∧
        e.data.checkedIn = d.data.checkedIn ∧ e.data.checkInTime = d.data.checkInTime) ∨
     (e.isLeader = false ∧ ∃ (i : Nat) (m : Member), e.memberIndex = (i : Int) ∧
        d.data.members[i]? = some m ∧ m.ticketId = some e.data.ticketId ∧
        e.data.checkedIn = m.checkedIn ∧ e.data.checkInTime = m.checkInTime))
/-- How one list record changes when the attendee with ticket id `ticketId` is
set to `checkedIn` / `checkInTime`: its records take the two values, every other
record is left as it is. -/
def StepRel (ticketId : Str) (checkedIn : Bool) (checkInTime : Option Timestamp)
    (r r' : AttendeeRecord) : Prop :=
  (r.ticketId = ticketId →
    r'.ticketId = ticketId ∧ r'.checkedIn = checkedIn ∧ r'.checkInTime = checkInTime) ∧
  (r.ticketId ≠ ticketId → r' = r)

/-- A list record and the index entry of the same attendee carry the same
`checkedIn` flag and `checkInTime`. -/
def AgreesWithIndex (m : DataMap) (r : AttendeeRecord) : Prop :=
  ∃ e, mapGet m (cleanId r.ticketId) = some e ∧ e.data.ticketId = r.ticketId ∧
    e.data.checkedIn = r.checkedIn ∧ e.data.checkInTime = r.checkInTime

/-- The state invariant: keys are unique, every entry is stored under the
canonical form of its ticket id, every list item that is an entry's data object
refers to an existing entry, and every copied list item agrees with the index. -/
def Consistent (st : AppState) : Prop :=
  (mapKeys st.dataMap).Nodup ∧
  (∀ kv ∈ st.dataMap, kv.1 = cleanId kv.2.data.ticketId) ∧
  (∀ item ∈ st.dataList,
    match item with
    | .entryData k => k ∈ mapKeys st.dataMap
    | .copy r => AgreesWithIndex st.dataMap r)
/-- States reached from `fetchData docs` by any sequence of `handleCheckIn` calls
and of `toggleCheckIn` calls on a record of the current list. -/
inductive Reachable (docs : List DocSnap) : AppState → Prop where
  | fetched : Reachable docs (fetchData docs)
  | checkIn {st : AppState} (ticketId : Str) (now : Timestamp) (writeOk : Bool)
      (o : CheckInOutcome) :
      Reachable docs st → handleCheckIn st ticketId now writeOk = .ok o →
      Reachable docs o.state
  | toggle {st : AppState} (item : AttendeeRecord) (now : Timestamp) (writeOk : Bool) :
      Reachable docs st → item ∈ displayRecords st →
      Reachable docs (toggleCheckIn st item now writeOk).state

/-- The same, with `toggleCheckIn` only applied to records whose ticket id is
its own canonical key (trimmed and upper-case). -/
inductive ReachableCanonical (docs : List DocSnap) : AppState → Prop where
  | fetched : ReachableCanonical docs (fetchData docs)
  | checkIn {st : AppState} (ticketId : Str) (now : Timestamp) (writeOk : Bool)
      (o : CheckInOutcome) :
      ReachableCanonical docs st → handleCheckIn st ticketId now writeOk = .ok o →
      ReachableCanonical docs o.state
  | toggle {st : AppState} (item : AttendeeRecord) (now : Timestamp) (writeOk : Bool) :
      ReachableCanonical docs st → item ∈ displayRecords st →
      cleanId item.ticketId = item.ticketId →
      ReachableCanonical docs (toggleCheckIn st item now writeOk).state

/-- One document whose leader holds ticket `A1` and is not checked in. -/
def oneLeaderDocs : List DocSnap :=
  [teamDoc "d1".toList (some "A1".toList) false none []]

/-- One document whose leader holds the lower-case ticket `a1`. -/
def lowerCaseDocs : List DocSnap :=
  [teamDoc "d1".toList (some "a1".toList) false none []]

/-- The state after `fetchData oneLeaderDocs`, a check-in of `A1` at second 100
and a toggle of the list record of `A1` at second 200. -/
def checkedThenToggled : AppState :=
  match handleCheckIn (fetchData oneLeaderDocs) "A1".toList ⟨100, 0⟩ true with
  | .ok o =>
    match displayRecords o.state with
    | item :: _ => (toggleCheckIn o.state item ⟨200, 0⟩ true).state
    | [] => o.state
  | .error _ => fetchData oneLeaderDocs

/-- The state after `fetchData lowerCaseDocs` and a toggle of its only record. -/
def lowerCaseToggled : AppState :=
  match displayRecords (fetchData lowerCaseDocs) with
  | item :: _ => (toggleCheckIn (fetchData lowerCaseDocs) item ⟨100, 0⟩ true).state
  | [] => fetchData lowerCaseDocs

/-- The state after `toggleCheckIn` on `item`. -/
def toggled (st : AppState) (item : AttendeeRecord) (now : Timestamp) (writeOk : Bool) :
    AppState :=
  (toggleCheckIn st item now writeOk).state

/-- The record written into the index entry by `toggleCheckIn` (lines 337-339). -/
def toggledData (item : AttendeeRecord) (now : Timestamp) (r : AttendeeRecord) :
    AttendeeRecord :=
  { r with
    checkedIn := !item.checkedIn
    checkInTime := if (!item.checkedIn) = true then some now else none
    status := some (if (!item.checkedIn) = true then "checked-in".toList else "pending".toList) }

/-- One document whose leader `A1` is checked in at second 50. -/
def checkedLeaderDocs : List DocSnap :=
  [teamDoc "d1".toList (some "A1".toList) true (some ⟨50, 0⟩) []]

/-- The list record of `checkedLeaderDocs`. -/
def checkedLeaderRecord : AttendeeRecord :=
  { name := some "Ravi".toList, email := none, phone := none, college := none,
    team := some "Orion".toList, status := none, checkedIn := true,
    checkInTime := some ⟨50, 0⟩, ticketId := "A1".toList, memberNumber := none }

/-- The list record of `checkedLeaderDocs` after one toggle. -/
def uncheckedLeaderRecord : AttendeeRecord :=
  { checkedLeaderRecord with
    checkedIn := false, checkInTime := none, status := some "pending".toList }

/-- One document whose leader holds ticket `T1` and has no `name` field. -/
def namelessDocs : List DocSnap :=
  [{ id := "d1".toList,
     data := { name := none, email := none, phone := none, college := none,
               team := some "Orion".toList, ticketId := some "T1".toList, status := none,
               checkedIn := false, checkInTime := none, members := [] } }]

/-- The match described for the search box: the lower-cased query occurs in the
lower-cased ticket id, name or team; an absent name or team does not match. -/
def matchesSpec (searchQuery : Str) (r : AttendeeRecord) : Bool :=
  includes (toLowerCase r.ticketId) (toLowerCase searchQuery) ||
  (match r.name with
   | some name => includes (toLowerCase name) (toLowerCase searchQuery)
   | none => false) ||
  (match r.team with
   | some team => includes (toLowerCase team) (toLowerCase searchQuery)
   | none => false)

/-- No character of `s` is changed by upper-casing. -/
def NoLower (s : Str) : Prop := ∀ c ∈ s, upperChar c = c

/-- The keys of a parsed object, if the value is one, have no lower-case letter. -/
def ValOK (v : JVal) : Prop := ∀ kvs, v = .obj kvs → ∀ kv ∈ kvs, NoLower kv.1

/-- The keys collected in an open object have no lower-case letter. -/
def FrameOK : Frame → Prop
  | .arr _ => True
  | .obj done key => (∀ kv ∈ done, NoLower kv.1) ∧ ∀ k, key = some k → NoLower k

/-- The key being read has no lower-case letter, and no `\u` escape is open. -/
def ModeOK : Mode → Prop
  | .str true acc => NoLower acc
  | .esc true acc => NoLower acc
  | .uni _ _ _ _ => False
  | .lit _ v => ValOK v
  | _ => True

/-- The parser invariant on texts without lower-case letters. -/
def PStateOK (st : PState) : Prop :=
  (∀ f ∈ st.stack, FrameOK f) ∧ ModeOK st.mode ∧ ∀ v, st.result = some v → ValOK v

/-- One document whose leader holds the lower-case ticket `a1` and is checked in
at second 50. -/
def lowerCaseCheckedDocs : List DocSnap :=
  [teamDoc "d1".toList (some "a1".toList) true (some ⟨50, 0⟩) []]

/-- The list record of `lowerCaseCheckedDocs`. -/
def lowerCaseCheckedRecord : AttendeeRecord :=
  { name := some "Ravi".toList, email := none, phone := none, college := none,
    team := some "Orion".toList, status := none, checkedIn := true,
    checkInTime := some ⟨50, 0⟩, ticketId := "a1".toList, memberNumber := none }

/-- The list record of `lowerCaseCheckedDocs` after one toggle. -/
def lowerCaseUncheckedRecord : AttendeeRecord :=
  { lowerCaseCheckedRecord with checkedIn := false, checkInTime := none }

/-! # Theorems -/

/-! ## C1: two check-ins in one document -/

/-- C1 (fails on the code): on one document with members `M1` and `M2`, a
successful check-in of `M1` followed by a successful check-in of `M2` issues a
second update, to the same document, whose member sequence is built from the
snapshot taken at fetch time: it carries `M1` as not checked in.  After both
updates the remote document has flags `[false, true]` while the lookup index has
`[true, true]`. -/
theorem handleCheckIn_second_member_write_is_stale :
    ∃ o1 o2,
      handleCheckIn (fetchData twoMemberDocs) "M1".toList ⟨100, 0⟩ true = .ok o1 ∧
      handleCheckIn o1.state "M2".toList ⟨200, 0⟩ true = .ok o2 ∧
      o1.updates.map (fun u => (u.docId, payloadFlags u.payload)) =
        [("d1".toList, [true, false])] ∧
      o2.updates.map (fun u => (u.docId, payloadFlags u.payload)) =
        [("d1".toList, [false, true])] ∧
      ((o1.updates ++ o2.updates).foldl applyUpdate twoMemberDocs).map
        (fun d => d.data.members.map (fun m => m.checkedIn)) = [[false, true]] ∧
      (indexRecords o2.state).map (fun r => (r.ticketId, r.checkedIn)) =
        [("M1".toList, true), ("M2".toList, true)] := by
  refine ⟨_, _, rfl, rfl, ?_, ?_, ?_, ?_⟩ <;> decide

/-! ## C4: the normaliser can raise -/

/-- C4 (fails on the code): on the text `{"ticketId":123}` the parse succeeds,
`clean` becomes the number 123, and the next line calls `clean.includes`, which a
number does not have: `parseScannedText` raises a `TypeError` to its caller.  A
text that fails to parse is returned normalised, as the claim says. -/
theorem parseScannedText_raises_on_number_ticketId :
    parseScannedText "\x7b\"ticketId\":123\x7d".toList = .error .typeError ∧
    parseScannedText "\x7b\"id\":true\x7d".toList = .error .typeError ∧
    parseScannedText "\x7b\"ticketId\":123".toList = .ok "TICKETID123".toList ∧
    parseScannedText "\x7bticketId:AB12\x7d".toList = .ok "TICKETIDAB12".toList := by
  refine ⟨?_, ?_, ?_, ?_⟩ <;> rfl

/-! ## Characters and strings -/

theorem mem_alnumChars {c : Char} (h : isAsciiAlnum c = true) : c ∈ alnumChars := by
  have hc : Char.ofNat c.toNat = c := Char.ofNat_toNat c
  simp only [isAsciiAlnum, Bool.or_eq_true, Bool.and_eq_true, decide_eq_true_eq] at h
  generalize c.toNat = n at h hc
  subst hc
  have hn : n ≤ 122 := by omega
  have h48 : 48 ≤ n := by omega
  interval_cases n <;> first | decide | (exfalso; omega)

theorem forall_alnumChars_facts : ∀ c ∈ alnumChars,
    isWhiteSpace c = false ∧ c ≠ '/' ∧ c ≠ '-' ∧ c ≠ '=' ∧ c ≠ '"' ∧ c ≠ '\\' ∧ c ≠ '}' ∧
    ¬ c.toNat < 32 ∧ isUpperAlnum (upperChar c) = true := by
  decide

theorem alnum_facts {c : Char} (h : isAsciiAlnum c = true) :
    isWhiteSpace c = false ∧ c ≠ '/' ∧ c ≠ '-' ∧ c ≠ '=' ∧ c ≠ '"' ∧ c ≠ '\\' ∧ c ≠ '}' ∧
    ¬ c.toNat < 32 ∧ isUpperAlnum (upperChar c) = true :=
  forall_alnumChars_facts c (mem_alnumChars h)

theorem split_ne_nil (sep : Char) (s : Str) : split sep s ≠ [] := by
  cases s with
  | nil => simp [split]
  | cons c cs =>
    simp only [split]
    split
    · simp
    · split <;> simp

theorem split_of_not_mem {sep : Char} {s : Str} (h : sep ∉ s) : split sep s = [s] := by
  induction s with
  | nil => rfl
  | cons c cs ih =>
    have hc : c ≠ sep := fun e => h (by simp [e])
    have hcs : sep ∉ cs := fun e => h (by simp [e])
    simp [split, hc, ih hcs]

theorem split_cons_ne (sep : Char) {c : Char} (s : Str) (h : c ≠ sep) :
    ∃ p ps, split sep s = p :: ps ∧ split sep (c :: s) = (c :: p) :: ps := by
  cases hs : split sep s with
  | nil => exact absurd hs (split_ne_nil sep s)
  | cons p ps => exact ⟨p, ps, rfl, by simp [split, h, hs]⟩

theorem split_append_sep (sep : Char) (x t : Str) :
    split sep (x ++ sep :: t) = split sep x ++ split sep t := by
  induction x with
  | nil => simp [split]
  | cons c x ih =>
    by_cases hc : c = sep
    · simp [split, hc, ih]
    · obtain ⟨p, ps, h1, h2⟩ := split_cons_ne sep x hc
      obtain ⟨q, qs, h3, h4⟩ := split_cons_ne sep (x ++ sep :: t) hc
      rw [List.cons_append, h4, h2]
      rw [ih, h1] at h3
      simp only [List.cons_append, List.cons.injEq] at h3
      simp [h3.1, h3.2]

theorem lastPart_of_not_mem {sep : Char} {s : Str} (h : sep ∉ s) : lastPart sep s = s := by
  simp [lastPart, split_of_not_mem h]

theorem lastPart_append_sep {sep : Char} (x : Str) {t : Str} (h : sep ∉ t) :
    lastPart sep (x ++ sep :: t) = t := by
  simp [lastPart, split_append_sep, split_of_not_mem h, List.getLastD_eq_getLast?]

theorem exists_last_sep {sep : Char} {x : Str} (h : sep ∈ x) :
    ∃ x1 x2, x = x1 ++ sep :: x2 ∧ sep ∉ x2 := by
  induction x with
  | nil => simp at h
  | cons c x ih =>
    by_cases hx : sep ∈ x
    · obtain ⟨x1, x2, rfl, h2⟩ := ih hx
      exact ⟨c :: x1, x2, rfl, h2⟩
    · have hc : sep = c := by simpa [hx] using h
      exact ⟨[], x, by simp [hc], hx⟩

theorem lastPart_append {sep : Char} (x : Str) {y : Str} (h : sep ∉ y) :
    lastPart sep (x ++ y) = lastPart sep x ++ y := by
  by_cases hx : sep ∈ x
  · obtain ⟨x1, x2, rfl, h2⟩ := exists_last_sep hx
    have h3 : sep ∉ x2 ++ y := by simp [h2, h]
    rw [lastPart_append_sep x1 h2, List.append_assoc, List.cons_append,
      lastPart_append_sep x1 h3]
  · have h3 : sep ∉ x ++ y := by simp [hx, h]
    rw [lastPart_of_not_mem hx, lastPart_of_not_mem h3]

theorem split_reverse (sep : Char) (s : Str) :
    ∃ l, (split sep s).reverse = lastPart sep s :: l := by
  have hne := split_ne_nil sep s
  rcases List.eq_nil_or_concat (split sep s) with h | ⟨l, a, h⟩
  · exact absurd h hne
  · exact ⟨l.reverse, by simp [lastPart, h, List.getLastD_eq_getLast?]⟩

theorem includes_singleton (s : Str) (c : Char) : includes s [c] = decide (c ∈ s) := by
  induction s with
  | nil => simp [includes]
  | cons a as ih =>
    simp [includes, ih, List.isPrefixOf, Bool.beq_eq_decide_eq]

theorem dropWhile_append_cons {p : Char → Bool} (s : Str) {a : Char} (t : Str)
    (ha : p a = false) : (s ++ a :: t).dropWhile p = s.dropWhile p ++ a :: t := by
  induction s with
  | nil => simp [List.dropWhile, ha]
  | cons c s ih =>
    by_cases hc : p c = true
    · simp [List.dropWhile, hc, ih]
    · simp [List.dropWhile, hc]

theorem rdropWhile_of_last {p : Char → Bool} (l : Str) {z : Char} (hz : p z = false) :
    (l ++ [z]).rdropWhile p = l ++ [z] := by
  apply List.rdropWhile_concat_neg
  simp [hz]

theorem exists_concat_of_alnum {t : Str} (hne : t ≠ []) (ht : AlnumStr t) :
    ∃ t1 z, t = t1 ++ [z] ∧ isAsciiAlnum z = true := by
  rcases List.eq_nil_or_concat t with h | ⟨l, a, h⟩
  · exact absurd h hne
  · have h' : t = l ++ [a] := by simpa using h
    exact ⟨l, a, h', ht a (by simp [h'])⟩

theorem trim_append_cons (s : Str) {a : Char} {t : Str} (ha : isWhiteSpace a = false)
    (hne : t ≠ []) (ht : AlnumStr t) :
    trim (s ++ a :: t) = s.dropWhile isWhiteSpace ++ a :: t := by
  obtain ⟨t1, z, rfl, hz⟩ := exists_concat_of_alnum hne ht
  unfold trim
  rw [dropWhile_append_cons s _ ha]
  have : List.dropWhile isWhiteSpace s ++ a :: (t1 ++ [z]) =
      (List.dropWhile isWhiteSpace s ++ a :: t1) ++ [z] := by simp
  rw [this, rdropWhile_of_last _ (alnum_facts hz).1]

theorem trim_alnum {t : Str} (hne : t ≠ []) (ht : AlnumStr t) : trim t = t := by
  cases t with
  | nil => exact absurd rfl hne
  | cons a t =>
    have ha := (alnum_facts (ht a (by simp))).1
    cases t with
    | nil => simp [trim, List.dropWhile, ha, List.rdropWhile]
    | cons b t =>
      have := trim_append_cons [] (a := a) (t := b :: t) ha (by simp)
        (fun c hc => ht c (by simp at hc ⊢; tauto))
      simpa using this

theorem not_mem_of_alnum {t : Str} (ht : AlnumStr t) {c : Char} (hc : isAsciiAlnum c = false) :
    c ∉ t := fun h => by simp [ht c h] at hc

theorem lastUrlSegment_ticket {t u : Str} (hne : t ≠ []) (ht : AlnumStr t)
    (hu : EndsInTicket t u) : EndsInTicket t (lastUrlSegment u) := by
  have hslash : '/' ∉ t := not_mem_of_alnum ht (by decide)
  unfold lastUrlSegment
  split
  · obtain ⟨l, hl⟩ := split_reverse '/' u
    have hlast : EndsInTicket t (lastPart '/' u) ∧ (trim (lastPart '/' u)).length > 0 := by
      rcases hu with rfl | ⟨x, rfl⟩
      · rw [lastPart_of_not_mem hslash, trim_alnum hne ht]
        exact ⟨Or.inl rfl, List.length_pos.mpr hne⟩
      · have h2 : '/' ∉ '-' :: t := by simp [hslash]
        rw [lastPart_append x h2, trim_append_cons _ (by decide) hne ht]
        exact ⟨Or.inr ⟨_, rfl⟩, by simp⟩
    rw [hl, List.find?_cons_of_pos _ (by simpa using hlast.2)]
    exact hlast.1
  · exact hu

theorem finishClean_ticket {t u : Str} (ht : AlnumStr t) (hu : EndsInTicket t u) :
    finishClean u = toUpperCase t := by
  have hdash : '-' ∉ t := not_mem_of_alnum ht (by decide)
  have heq : '=' ∉ t := not_mem_of_alnum ht (by decide)
  have hfilter : (toUpperCase t).filter isUpperAlnum = toUpperCase t := by
    rw [List.filter_eq_self]
    intro c hc
    simp only [toUpperCase, List.mem_map] at hc
    obtain ⟨a, ha, rfl⟩ := hc
    exact (alnum_facts (ht a ha)).2.2.2.2.2.2.2.2
  unfold finishClean
  rcases hu with rfl | ⟨x, rfl⟩
  · simp [includes_singleton, hdash, heq, hfilter]
  · simp [includes_singleton, lastPart_append_sep x hdash, heq, hfilter]

theorem parseJsonAndFinish_ticket {t u : Str} (hne : t ≠ []) (ht : AlnumStr t)
    (hu : EndsInTicket t u) : parseJsonAndFinish u = .ok (toUpperCase t) := by
  obtain ⟨t1, z, rfl, hz⟩ := exists_concat_of_alnum hne ht
  have hend : endsWith u ['}'] = false := by
    have hz' : z ≠ '}' := (alnum_facts hz).2.2.2.2.2.2.1
    rcases hu with rfl | ⟨x, rfl⟩
    · simpa [endsWith, List.isSuffixOf, List.isPrefixOf] using Ne.symm hz'
    · simpa [endsWith, List.isSuffixOf, List.isPrefixOf] using Ne.symm hz'
  unfold parseJsonAndFinish
  rw [hend, Bool.and_false]
  simp [finishClean_ticket ht hu]

theorem stripEventPrefix_ticket {t : Str} (x : Str) :
    EndsInTicket t (stripEventPrefix (x ++ '-' :: t)) := by
  unfold stripEventPrefix
  split
  · unfold replaceEventPrefix
    split
    · rename_i h
      rcases x with _ | ⟨a0, _ | ⟨a1, _ | ⟨a2, _ | ⟨a3, _ | ⟨a4, _ | ⟨a5, _ | ⟨a6, b⟩⟩⟩⟩⟩⟩⟩
      all_goals try (simp [toUpperCase, upperChar] at h)
      cases b with
      | nil => exact Or.inl (by simp)
      | cons c b =>
        simp only [List.cons_append, List.drop_succ_cons, List.drop_zero]
        split
        · exact Or.inr ⟨b, rfl⟩
        · exact Or.inr ⟨c :: b, rfl⟩
    · exact Or.inr ⟨x, rfl⟩
  · exact Or.inr ⟨x, rfl⟩

theorem parseScannedText_hyphen_ticket {t : Str} (s : Str) (hne : t ≠ []) (ht : AlnumStr t) :
    parseScannedText (s ++ '-' :: t) = .ok (toUpperCase t) := by
  unfold parseScannedText
  rw [if_neg (by simp)]
  rw [trim_append_cons s (by decide) hne ht]
  exact parseJsonAndFinish_ticket hne ht
    (lastUrlSegment_ticket hne ht (stripEventPrefix_ticket _))

theorem parseScannedText_url_ticket {t : Str} (hne : t ≠ []) (ht : AlnumStr t) :
    parseScannedText ("https://x.io/evt/".toList ++ t) = .ok (toUpperCase t) := by
  have hslash : '/' ∉ t := not_mem_of_alnum ht (by decide)
  unfold parseScannedText
  rw [if_neg (by simp)]
  have h1 : trim ("https://x.io/evt/".toList ++ t) = "https://x.io/evt".toList ++ '/' :: t := by
    have := trim_append_cons "https://x.io/evt".toList (a := '/') (by decide) hne ht
    simpa [List.dropWhile, isWhiteSpace] using this
  rw [h1]
  have h2 : stripEventPrefix ("https://x.io/evt".toList ++ '/' :: t) =
      "https://x.io/evt".toList ++ '/' :: t := by
    simp [stripEventPrefix, startsWith, toUpperCase, List.isPrefixOf, upperChar]
  rw [h2]
  have h3 : lastUrlSegment ("https://x.io/evt".toList ++ '/' :: t) = t := by
    unfold lastUrlSegment
    obtain ⟨l, hl⟩ := split_reverse '/' ("https://x.io/evt".toList ++ '/' :: t)
    rw [lastPart_append_sep _ hslash] at hl
    have hinc : includes ("https://x.io/evt".toList ++ '/' :: t) ['/'] = true := by
      simp [includes_singleton]
    rw [hinc, Bool.or_true, if_pos rfl, hl,
      List.find?_cons_of_pos _ (by simpa [trim_alnum hne ht] using List.length_pos.mpr hne)]
  rw [h3]
  exact parseJsonAndFinish_ticket hne ht (Or.inl rfl)

theorem foldlM_step_str (isKey : Bool) (stack : List Frame) (result : Option JVal) :
    ∀ (t acc : Str), (∀ c ∈ t, c ≠ '"' ∧ c ≠ '\\' ∧ ¬ c.toNat < 32) →
      t.foldlM step { stack := stack, mode := .str isKey acc, result := result } =
        some { stack := stack, mode := .str isKey (t.reverse ++ acc), result := result } := by
  intro t
  induction t with
  | nil => intro acc _; rfl
  | cons c t ih =>
    intro acc h
    obtain ⟨h1, h2, h3⟩ := h c (by simp)
    have hstep : step { stack := stack, mode := .str isKey acc, result := result } c =
        some { stack := stack, mode := .str isKey (c :: acc), result := result } := by
      simp [step, h1, h2, h3]
    rw [List.foldlM_cons, hstep]
    simp only [Option.bind_eq_bind, Option.some_bind]
    rw [ih (c :: acc) (fun d hd => h d (by simp [hd]))]
    simp

theorem jsonParse_ticket {t : Str} (ht : AlnumStr t) :
    jsonParse (jsonTicketText t) = some (.obj [("ticketId".toList, .str t)]) := by
  have hplain : ∀ c ∈ t, c ≠ '"' ∧ c ≠ '\\' ∧ ¬ c.toNat < 32 := fun c hc =>
    let f := alnum_facts (ht c hc)
    ⟨f.2.2.2.2.1, f.2.2.2.2.2.1, f.2.2.2.2.2.2.2.1⟩
  have hpre : "\x7b\"ticketId\":\"".toList.foldlM step
      { stack := [], mode := .value, result := none } =
      some { stack := [.obj [] (some "ticketId".toList)], mode := .str false [],
             result := none } := by rfl
  unfold jsonParse jsonTicketText
  rw [List.foldlM_append, List.foldlM_append, hpre]
  simp only [Option.bind_eq_bind, Option.some_bind]
  rw [foldlM_step_str false _ _ t [] hplain]
  have hpost : ∀ acc : Str, "\"\x7d".toList.foldlM step
      { stack := [.obj [] (some "ticketId".toList)], mode := .str false acc, result := none } =
      some { stack := [], mode := .after,
             result := some (.obj [("ticketId".toList, .str acc.reverse)]) } := fun _ => rfl
  simp only [Option.some_bind, hpost, List.append_nil, List.reverse_reverse]
  rfl

theorem parseScannedText_json_ticket {t : Str} (hne : t ≠ []) (ht : AlnumStr t) :
    parseScannedText (jsonTicketText t) = .ok (toUpperCase t) := by
  have hslash : '/' ∉ jsonTicketText t := by
    have := not_mem_of_alnum ht (c := '/') (by decide)
    simp [jsonTicketText, this]
  have htrim : trim (jsonTicketText t) = jsonTicketText t := by
    unfold trim jsonTicketText
    have h1 : ("\x7b\"ticketId\":\"".toList ++ t ++ "\"\x7d".toList).dropWhile isWhiteSpace =
        "\x7b\"ticketId\":\"".toList ++ t ++ "\"\x7d".toList := by
      simp [List.dropWhile, isWhiteSpace]
    rw [h1]
    have h2 : "\x7b\"ticketId\":\"".toList ++ t ++ "\"\x7d".toList =
        ("\x7b\"ticketId\":\"".toList ++ t ++ ['"']) ++ ['}'] := by simp
    rw [h2, rdropWhile_of_last _ (by decide)]
  have hstrip : stripEventPrefix (jsonTicketText t) = jsonTicketText t := by
    simp [stripEventPrefix, jsonTicketText, startsWith, toUpperCase, List.isPrefixOf, upperChar]
  have hurl : lastUrlSegment (jsonTicketText t) = jsonTicketText t := by
    unfold lastUrlSegment
    split
    · rw [split_of_not_mem hslash]
      simp only [List.reverse_cons, List.reverse_nil, List.nil_append]
      by_cases h : (trim (jsonTicketText t)).length > 0
      · rw [List.find?_cons_of_pos _ (by simpa using h)]
      · rw [List.find?_cons_of_neg _ (by simpa using h)]
        rfl
    · rfl
  have hbraces : (startsWith (jsonTicketText t) ['{'] && endsWith (jsonTicketText t) ['}']) = true := by
    simp [startsWith, endsWith, jsonTicketText, List.isPrefixOf, List.isSuffixOf]
  have hprop : getProp (.obj [("ticketId".toList, .str t)]) "ticketId".toList = some (.str t) := by
    rfl
  have htruthy : truthy (some (.str t)) = true := by
    cases t with
    | nil => exact absurd rfl hne
    | cons a t => rfl
  unfold parseScannedText
  rw [if_neg (by simp [jsonTicketText]), htrim, hstrip, hurl]
  unfold parseJsonAndFinish
  rw [hbraces, if_pos rfl, jsonParse_ticket ht]
  simp only [hprop, htruthy, if_true, finishValue]
  rw [finishClean_ticket ht (Or.inl rfl)]

/-! ## C8: the documented normaliser examples -/

/-- C8: for every non-empty string `t` of ASCII letters and digits,
`parseScannedText` maps `"IFI2026-" + t`, `"https://x.io/evt/" + t` and
`'{"ticketId":"' + t + '"}'` to `t` upper-cased, and for every string `s` it maps
`s + "-" + t` to `t` upper-cased; the four documented examples are instances. -/
theorem parseScannedText_documented_examples (t : Str) (hne : t ≠ []) (ht : AlnumStr t) :
    parseScannedText ("IFI2026-".toList ++ t) = .ok (toUpperCase t) ∧
    parseScannedText ("https://x.io/evt/".toList ++ t) = .ok (toUpperCase t) ∧
    parseScannedText (jsonTicketText t) = .ok (toUpperCase t) ∧
    (∀ s : Str, parseScannedText (s ++ "-".toList ++ t) = .ok (toUpperCase t)) ∧
    parseScannedText "IFI2026-ABC123".toList = .ok "ABC123".toList ∧
    parseScannedText "https://x.io/evt/ABC123".toList = .ok "ABC123".toList ∧
    parseScannedText "\x7b\"ticketId\":\"ABC123\"\x7d".toList = .ok "ABC123".toList ∧
    parseScannedText "abc-123".toList = .ok "123".toList := by
  refine ⟨?_, parseScannedText_url_ticket hne ht, parseScannedText_json_ticket hne ht,
    ?_, rfl, rfl, rfl, rfl⟩
  · exact parseScannedText_hyphen_ticket "IFI2026".toList hne ht
  · intro s
    simpa using parseScannedText_hyphen_ticket s hne ht

/-- C8 at `t = "ABC123"`. -/
theorem parseScannedText_documented_examples_witness :
    parseScannedText ("IFI2026-".toList ++ "ABC123".toList) = .ok (toUpperCase "ABC123".toList) ∧
    parseScannedText ("https://x.io/evt/".toList ++ "ABC123".toList) =
      .ok (toUpperCase "ABC123".toList) ∧
    parseScannedText (jsonTicketText "ABC123".toList) = .ok (toUpperCase "ABC123".toList) ∧
    toUpperCase "ABC123".toList = "ABC123".toList :=
  have h := parseScannedText_documented_examples "ABC123".toList (by decide)
    (by unfold AlnumStr; decide)
  ⟨h.1, h.2.1, h.2.2.1, by decide⟩

/-! ## C5: idempotence of the normaliser -/

theorem upperAlnum_isAsciiAlnum {c : Char} (h : isUpperAlnum c = true) :
    isAsciiAlnum c = true := by
  simp only [isUpperAlnum, isAsciiAlnum, Bool.or_eq_true, Bool.and_eq_true,
    decide_eq_true_eq] at h ⊢
  omega

theorem forall_alnumChars_upper : ∀ c ∈ alnumChars, isUpperAlnum c = true → upperChar c = c := by
  decide

theorem upperChar_of_upperAlnum {c : Char} (h : isUpperAlnum c = true) : upperChar c = c :=
  forall_alnumChars_upper c (mem_alnumChars (upperAlnum_isAsciiAlnum h)) h

theorem finishClean_upperAlnum (u : Str) : ∀ c ∈ finishClean u, isUpperAlnum c = true := by
  intro c hc
  unfold finishClean at hc
  exact (List.mem_filter.mp hc).2

theorem parseScannedText_upperAlnum {x y : Str} (h : parseScannedText x = .ok y) :
    ∀ c ∈ y, isUpperAlnum c = true := by
  have key : ∀ u, Except.ok (ε := JsError) (finishClean u) = .ok y →
      ∀ c ∈ y, isUpperAlnum c = true := by
    intro u hu
    cases hu
    exact finishClean_upperAlnum u
  unfold parseScannedText at h
  split at h
  · cases h; simp
  · unfold parseJsonAndFinish at h
    split at h
    · split at h
      · split at h
        · split at h
          · rename_i v _
            cases v <;> first | exact key _ h | cases h
          · exact key _ h
        · split at h
          · split at h
            · rename_i v _
              cases v <;> first | exact key _ h | cases h
            · exact key _ h
          · exact key _ h
      · exact key _ h
    · exact key _ h

theorem parseScannedText_fixed {y : Str} (hy : ∀ c ∈ y, isUpperAlnum c = true)
    (hp : startsWith y eventPrefix = false) : parseScannedText y = .ok y := by
  by_cases hne : y = []
  · subst hne; rfl
  · have hal : AlnumStr y := fun c hc => upperAlnum_isAsciiAlnum (hy c hc)
    have hup : toUpperCase y = y := by
      unfold toUpperCase
      conv_rhs => rw [← List.map_id y]
      exact List.map_congr_left (fun c hc => upperChar_of_upperAlnum (hy c hc))
    have hstrip : stripEventPrefix y = y := by
      unfold stripEventPrefix
      rw [hup]
      have : startsWith y ['I', 'F', 'I', '2', '0', '2', '6'] = false := hp
      simp [this]
    unfold parseScannedText
    rw [if_neg (by simpa using hne), trim_alnum hne hal, hstrip,
      parseJsonAndFinish_ticket hne hal (lastUrlSegment_ticket hne hal (Or.inl rfl)), hup]

/-- C5 (fails on the code): `IFI2026IFI2026A1` is trimmed and upper-case, its
normal form is `IFI2026A1`, and normalising that again strips the prefix once
more and gives `A1`. -/
theorem parseScannedText_not_idempotent :
    IsCanonicalKey "IFI2026IFI2026A1".toList ∧
    parseScannedText "IFI2026IFI2026A1".toList = .ok "IFI2026A1".toList ∧
    parseScannedText "IFI2026A1".toList = .ok "A1".toList ∧
    (parseScannedText "IFI2026IFI2026A1".toList).bind parseScannedText ≠
      parseScannedText "IFI2026IFI2026A1".toList := by
  have h1 : parseScannedText "IFI2026IFI2026A1".toList = .ok "IFI2026A1".toList := rfl
  have h2 : parseScannedText "IFI2026A1".toList = .ok "A1".toList := rfl
  refine ⟨⟨by decide, by decide⟩, h1, h2, ?_⟩
  rw [h1]
  show parseScannedText "IFI2026A1".toList ≠ _
  rw [h2]
  intro h
  exact absurd (Except.ok.inj h) (by decide)

/-! ## The lookup index as a map -/

theorem mapHas_iff (m : DataMap) (k : Str) : mapHas m k = true ↔ k ∈ mapKeys m := by
  unfold mapHas mapKeys
  rw [List.any_eq_true, List.mem_map]
  constructor
  · rintro ⟨kv, h1, h2⟩
    exact ⟨kv, h1, by simpa using h2⟩
  · rintro ⟨kv, h1, h2⟩
    exact ⟨kv, h1, by simpa using h2⟩

theorem mapKeys_mapSet (m : DataMap) (k : Str) (e : Entry) :
    mapKeys (mapSet m k e) = if k ∈ mapKeys m then mapKeys m else mapKeys m ++ [k] := by
  induction m with
  | nil => simp [mapSet, mapKeys]
  | cons kv m ih =>
    obtain ⟨k', e'⟩ := kv
    by_cases h : k' = k
    · simp [mapSet, mapKeys, h]
    · have h' : ¬ k = k' := fun x => h x.symm
      simp only [mapKeys] at ih
      simp only [mapSet, h, if_false, mapKeys, List.map_cons, List.mem_cons, h', false_or, ih]
      split <;> simp

theorem mem_mapKeys_mapSet (m : DataMap) (k k' : Str) (e : Entry) :
    k' ∈ mapKeys (mapSet m k e) ↔ k' = k ∨ k' ∈ mapKeys m := by
  rw [mapKeys_mapSet]
  split
  · constructor
    · exact Or.inr
    · rintro (rfl | h)
      · assumption
      · exact h
  · simp [or_comm]

theorem nodup_mapKeys_mapSet {m : DataMap} (k : Str) (e : Entry) (h : (mapKeys m).Nodup) :
    (mapKeys (mapSet m k e)).Nodup := by
  rw [mapKeys_mapSet]
  split
  · exact h
  · rename_i hk
    exact List.Nodup.append h (by simp) (by simpa using hk)

theorem mapGet_mapSet_self (m : DataMap) (k : Str) (e : Entry) :
    mapGet (mapSet m k e) k = some e := by
  induction m with
  | nil => simp [mapSet, mapGet]
  | cons kv m ih =>
    obtain ⟨k', e'⟩ := kv
    by_cases h : k' = k
    · simp [mapSet, mapGet, h]
    · simp [mapSet, mapGet, h, ih]

theorem mapGet_mapSet_ne (m : DataMap) {k k' : Str} (e : Entry) (hne : k' ≠ k) :
    mapGet (mapSet m k e) k' = mapGet m k' := by
  induction m with
  | nil => simp [mapSet, mapGet, hne.symm]
  | cons kv m ih =>
    obtain ⟨k'', e''⟩ := kv
    by_cases h : k'' = k
    · subst h
      simp [mapSet, mapGet, hne.symm]
    · by_cases h2 : k'' = k'
      · subst h2
        simp [mapSet, mapGet, h]
      · simp [mapSet, mapGet, h, h2, ih]

theorem mem_of_mapGet {m : DataMap} {k : Str} {e : Entry} (h : mapGet m k = some e) :
    (k, e) ∈ m := by
  induction m with
  | nil => simp [mapGet] at h
  | cons kv m ih =>
    obtain ⟨k', e'⟩ := kv
    by_cases hk : k' = k
    · simp [mapGet, hk] at h
      simp [hk, h]
    · simp [mapGet, hk] at h
      exact List.mem_cons_of_mem _ (ih h)

theorem mapGet_of_mem {m : DataMap} {k : Str} {e : Entry} (hnd : (mapKeys m).Nodup)
    (h : (k, e) ∈ m) : mapGet m k = some e := by
  induction m with
  | nil => simp at h
  | cons kv m ih =>
    obtain ⟨k', e'⟩ := kv
    simp only [mapKeys, List.map_cons, List.nodup_cons] at hnd
    rcases List.mem_cons.mp h with h1 | h1
    · cases h1
      simp [mapGet]
    · have hk : k' ≠ k := by
        rintro rfl
        exact hnd.1 (List.mem_map.mpr ⟨(k', e), h1, rfl⟩)
      simp only [mapGet, hk, if_false]
      exact ih hnd.2 h1

theorem mapGet_isSome_iff (m : DataMap) (k : Str) : (mapGet m k).isSome ↔ k ∈ mapKeys m := by
  induction m with
  | nil => simp [mapGet, mapKeys]
  | cons kv m ih =>
    obtain ⟨k', e'⟩ := kv
    by_cases hk : k' = k
    · simp [mapGet, mapKeys, hk]
    · have hk' : ¬ k = k' := fun x => hk x.symm
      simp only [mapKeys] at ih
      simp [mapGet, mapKeys, hk, hk', ih]

theorem mem_mapSet {m : DataMap} {k : Str} {e : Entry} {kv : Str × Entry}
    (h : kv ∈ mapSet m k e) : kv = (k, e) ∨ kv ∈ m := by
  induction m with
  | nil => simpa [mapSet] using h
  | cons kv' m ih =>
    obtain ⟨k', e'⟩ := kv'
    by_cases hk : k' = k
    · simp only [mapSet, hk, if_true, List.mem_cons] at h
      rcases h with h | h
      · exact Or.inl h
      · exact Or.inr (List.mem_cons_of_mem _ h)
    · simp only [mapSet, hk, if_false, List.mem_cons] at h
      rcases h with h | h
      · exact Or.inr (by simp [h])
      · rcases ih h with h | h
        · exact Or.inl h
        · exact Or.inr (List.mem_cons_of_mem _ h)
/-! ## C6: counters and keys built by `fetchData` -/

theorem Extends.refl (a : Acc) : Extends a a [] := by
  simp [Extends]

theorem Extends.trans {a b c : Acc} {l1 l2 : List (Str × Bool)} (h1 : Extends a b l1)
    (h2 : Extends b c l2) : Extends a c (l1 ++ l2) := by
  obtain ⟨a1, a2, a3, a4⟩ := h1
  obtain ⟨b1, b2, b3, b4⟩ := h2
  refine ⟨?_, ?_, ?_, fun h => b4 (a4 h)⟩
  · rw [b1, a1, List.length_append]; push_cast; ring
  · rw [b2, a2, List.countP_append]; push_cast; ring
  · intro k
    rw [b3, a3, List.map_append, List.mem_append, or_assoc]

theorem extends_insert (acc : Acc) (t : Str) (ci : Bool) (e : Entry) :
    Extends acc
      { map := mapSet acc.map (cleanId t) e
        totalCount := acc.totalCount + 1
        checkedInCount := if ci then acc.checkedInCount + 1 else acc.checkedInCount }
      [(t, ci)] := by
  refine ⟨by simp, ?_, ?_, fun h => nodup_mapKeys_mapSet _ _ h⟩
  · cases ci <;> simp
  · intro k
    simp only [mem_mapKeys_mapSet, List.map_cons, List.map_nil, List.mem_singleton]
    exact or_comm

theorem extends_processLeader (docId : Str) (data : TeamData) (acc : Acc) :
    Extends acc (processLeader docId data acc) (leaderTicket { id := docId, data := data }) := by
  unfold processLeader leaderTicket
  cases h : data.ticketId with
  | none => simpa using Extends.refl acc
  | some t =>
    by_cases ht : t.isEmpty = true
    · simpa [ht] using Extends.refl acc
    · simp only [ht]
      exact extends_insert acc t data.checkedIn _

theorem extends_processMember (docId : Str) (data : TeamData) (acc : Acc) (m : Member)
    (i : Nat) : Extends acc (processMember docId data acc m i) (memberTickets [m]) := by
  unfold processMember memberTickets
  cases h : m.ticketId with
  | none =>
    have hl : ([m].filterMap fun m : Member =>
        match m.ticketId with
        | some t => if t.isEmpty then none else some (t, m.checkedIn)
        | none => none) = [] := by simp [h]
    rw [hl]
    exact Extends.refl acc
  | some t =>
    by_cases ht : t.isEmpty = true
    · have hl : ([m].filterMap fun m : Member =>
          match m.ticketId with
          | some t => if t.isEmpty then none else some (t, m.checkedIn)
          | none => none) = [] := by simp [h, List.isEmpty_iff.mp ht]
      rw [hl]
      simpa [ht] using Extends.refl acc
    · have hl : ([m].filterMap fun m : Member =>
          match m.ticketId with
          | some t => if t.isEmpty then none else some (t, m.checkedIn)
          | none => none) = [(t, m.checkedIn)] := by
        have ht' : ¬ t = [] := fun e => ht (List.isEmpty_iff.mpr e)
        simp [h, ht']
      rw [hl]
      simp only [ht]
      exact extends_insert acc t m.checkedIn _

theorem memberTickets_cons (m : Member) (ms : List Member) :
    memberTickets (m :: ms) = memberTickets [m] ++ memberTickets ms := by
  unfold memberTickets
  rw [← List.filterMap_append]
  rfl

theorem extends_processMembers (docId : Str) (data : TeamData) :
    ∀ (ms : List Member) (acc : Acc) (i : Nat),
      Extends acc (processMembers docId data acc i ms) (memberTickets ms) := by
  intro ms
  induction ms with
  | nil => intro acc i; simpa [processMembers, memberTickets] using Extends.refl acc
  | cons m ms ih =>
    intro acc i
    rw [memberTickets_cons]
    exact (extends_processMember docId data acc m i).trans (ih _ _)

theorem extends_processDoc (acc : Acc) (d : DocSnap) :
    Extends acc (processDoc acc d) (leaderTicket d ++ memberTickets d.data.members) :=
  (extends_processLeader d.id d.data acc).trans (extends_processMembers d.id d.data _ _ _)

theorem extends_foldl (docs : List DocSnap) :
    ∀ acc : Acc, Extends acc (docs.foldl processDoc acc) (ticketed docs) := by
  induction docs with
  | nil => intro acc; simpa [ticketed] using Extends.refl acc
  | cons d docs ih =>
    intro acc
    have := (extends_processDoc acc d).trans (ih (processDoc acc d))
    simpa [ticketed, List.flatMap_cons] using this

/-- C6: `fetchData` yields `total` = the number of leader records and member
sub-records with a non-empty ticket id, `checkedIn` = the number of those whose
flag is set, and an index whose keys are exactly (and each once) the trimmed,
upper-cased ticket ids of those records.  On the example of the specification
the result is total 2, checkedIn 1 and keys `L1`, `M1`. -/
theorem fetchData_counts_and_keys (docs : List DocSnap) :
    (fetchData docs).stats.total = (ticketed docs).length ∧
    (fetchData docs).stats.checkedIn = (ticketed docs).countP (fun p => p.2) ∧
    (∀ k, mapHas (fetchData docs).dataMap k = true ↔
      k ∈ (ticketed docs).map (fun p => toUpperCase (trim p.1))) ∧
    (mapKeys (fetchData docs).dataMap).Nodup ∧
    (fetchData specExampleDocs).stats = { total := 2, checkedIn := 1 } ∧
    mapKeys (fetchData specExampleDocs).dataMap = ["L1".toList, "M1".toList] := by
  obtain ⟨h1, h2, h3, h4⟩ :=
    extends_foldl docs { map := [], totalCount := 0, checkedInCount := 0 }
  refine ⟨?_, ?_, ?_, ?_, by decide, by decide⟩
  · simpa [fetchData] using h1
  · simpa [fetchData] using h2
  · intro k
    rw [mapHas_iff]
    simpa [fetchData, mapKeys, cleanId] using h3 k
  · exact h4 (by simp [mapKeys])

/-! ## C7: the order of the display list -/

theorem nodup_mapKeys_fetchData (docs : List DocSnap) :
    (mapKeys (fetchData docs).dataMap).Nodup :=
  (extends_foldl docs { map := [], totalCount := 0, checkedInCount := 0 }).2.2.2
    (by simp [mapKeys])

theorem sortEntries_perm (m : DataMap) : (sortEntries m).Perm m :=
  List.perm_insertionSort _ m

theorem filterMap_deref_entries {m : DataMap} (hnd : (mapKeys m).Nodup) (l : DataMap)
    (hl : ∀ kv ∈ l, kv ∈ m) :
    (l.map (fun kv => DisplayItem.entryData kv.1)).filterMap (deref m) =
      l.map (fun kv => kv.2.data) := by
  induction l with
  | nil => rfl
  | cons kv l ih =>
    have h1 : mapGet m kv.1 = some kv.2 := mapGet_of_mem hnd (hl kv (by simp))
    simp only [List.map_cons, List.filterMap_cons, deref, h1, Option.map_some']
    rw [ih (fun x hx => hl x (List.mem_cons_of_mem _ hx))]

theorem displayRecords_fetchData (docs : List DocSnap) :
    displayRecords (fetchData docs) = sortRecords (indexRecords (fetchData docs)) := by
  have hnd := nodup_mapKeys_fetchData docs
  unfold displayRecords
  have : (fetchData docs).dataList =
      (sortEntries (fetchData docs).dataMap).map (fun kv => DisplayItem.entryData kv.1) := rfl
  rw [this, filterMap_deref_entries hnd _
    (fun kv h => (sortEntries_perm _).subset h)]
  unfold sortEntries sortRecords indexRecords
  exact List.map_insertionSort (fun a b : Str × Entry => recLe a.2.data b.2.data) recLe
    (fun kv => kv.2.data) _ (fun a _ b _ => Iff.rfl)

theorem recLe_iff (a b : AttendeeRecord) :
    recLe a b ↔ (a.checkedIn = true ∧ (b.checkedIn = false ∨ timeKey b ≤ timeKey a)) ∨
      (a.checkedIn = false ∧ b.checkedIn = false) := by
  unfold recLe compareRecords
  cases ha : a.checkedIn <;> cases hb : b.checkedIn <;> simp

theorem recLe_total (a b : AttendeeRecord) : recLe a b ∨ recLe b a := by
  rw [recLe_iff, recLe_iff]
  cases a.checkedIn <;> cases b.checkedIn <;> simp
  omega

theorem recLe_trans (a b c : AttendeeRecord) : recLe a b → recLe b c → recLe a c := by
  rw [recLe_iff, recLe_iff, recLe_iff]
  cases a.checkedIn <;> cases b.checkedIn <;> cases c.checkedIn <;> simp
  omega

theorem sorted_sortRecords (l : List AttendeeRecord) : (sortRecords l).Sorted recLe :=
  haveI : IsTotal AttendeeRecord recLe := ⟨recLe_total⟩
  haveI : IsTrans AttendeeRecord recLe := ⟨recLe_trans⟩
  List.sorted_insertionSort recLe l

theorem sortRecords_perm (l : List AttendeeRecord) : (sortRecords l).Perm l :=
  List.perm_insertionSort recLe l

/-- Records of one class that the comparator does not separate keep their order. -/
theorem sortRecords_filter_stable (p : AttendeeRecord → Bool)
    (hp : ∀ a b, p a = true → p b = true → recLe a b) (l : List AttendeeRecord) :
    (sortRecords l).filter p = l.filter p := by
  have hpw : (l.filter p).Pairwise recLe := by
    rw [List.pairwise_iff_forall_sublist]
    intro a b hab
    have ha : a ∈ l.filter p := hab.subset (by simp)
    have hb : b ∈ l.filter p := hab.subset (by simp)
    exact hp a b (List.mem_filter.mp ha).2 (List.mem_filter.mp hb).2
  have hsub : List.Sublist (l.filter p) (sortRecords l) :=
    List.sublist_insertionSort hpw (List.filter_sublist l)
  have hsub2 : List.Sublist (l.filter p) ((sortRecords l).filter p) := by
    have := hsub.filter p
    simpa [List.filter_filter] using this
  have hlen : ((sortRecords l).filter p).length = (l.filter p).length :=
    ((sortRecords_perm l).filter p).length_eq
  exact (hsub2.eq_of_length hlen.symm).symm

theorem sorted_checkedIn_first {l : List AttendeeRecord} (h : l.Sorted recLe) :
    l = l.filter (fun r => r.checkedIn) ++ l.filter (fun r => !r.checkedIn) := by
  induction l with
  | nil => rfl
  | cons a l ih =>
    have hal := List.rel_of_sorted_cons h
    have ih' := ih h.of_cons
    cases ha : a.checkedIn with
    | true =>
      simp only [List.filter_cons, ha, Bool.not_true, if_true, List.cons_append]
      simp only [Bool.false_eq_true, if_false]
      rw [← ih']
    | false =>
      have hall : ∀ b ∈ l, b.checkedIn = false := by
        intro b hb
        have := (recLe_iff a b).mp (hal b hb)
        simp [ha] at this
        exact this
      have h1 : l.filter (fun r => r.checkedIn) = [] := by
        rw [List.filter_eq_nil_iff]
        intro b hb
        simp [hall b hb]
      have h2 : l.filter (fun r => !r.checkedIn) = l := by
        rw [List.filter_eq_self]
        intro b hb
        simp [hall b hb]
      simp [List.filter_cons, ha, h1, h2]

/-- C7 (fails on the code): with leader `N` (not checked in) indexed before
leader `A` (checked in, no timestamp), the display list is `A, N`: the records
without a timestamp did not keep the order `N, A` they have in the index. -/
theorem displayList_unstamped_reordered :
    (indexRecords (fetchData unstampedDocs)).map (fun r => r.ticketId) =
      ["N".toList, "A".toList] ∧
    (displayRecords (fetchData unstampedDocs)).map (fun r => r.ticketId) =
      ["A".toList, "N".toList] ∧
    (displayRecords (fetchData unstampedDocs)).filter (fun r => !isStamped r) ≠
      (indexRecords (fetchData unstampedDocs)).filter (fun r => !isStamped r) := by
  decide

/-- C7 (amended): the display list built by `fetchData` is a permutation of the
index records; the checked-in records come first, ordered by `seconds`
descending with a missing timestamp counted as 0, records with equal seconds in
index order; the records not checked in follow, in index order. -/
theorem displayList_order (docs : List DocSnap) :
    (displayRecords (fetchData docs)).Perm (indexRecords (fetchData docs)) ∧
    displayRecords (fetchData docs) =
      (displayRecords (fetchData docs)).filter (fun r => r.checkedIn) ++
        (indexRecords (fetchData docs)).filter (fun r => !r.checkedIn) ∧
    ((displayRecords (fetchData docs)).filter (fun r => r.checkedIn)).Pairwise
      (fun a b => timeKey b ≤ timeKey a) ∧
    (∀ s : Int, (displayRecords (fetchData docs)).filter
        (fun r => r.checkedIn && decide (timeKey r = s)) =
      (indexRecords (fetchData docs)).filter
        (fun r => r.checkedIn && decide (timeKey r = s))) := by
  rw [displayRecords_fetchData]
  generalize indexRecords (fetchData docs) = idx
  have hs := sorted_sortRecords idx
  refine ⟨sortRecords_perm idx, ?_, ?_, ?_⟩
  · have h1 := sorted_checkedIn_first hs
    have h2 := sortRecords_filter_stable (fun r => !r.checkedIn)
      (fun a b ha hb => (recLe_iff a b).mpr (Or.inr ⟨by simpa using ha, by simpa using hb⟩)) idx
    rw [h2] at h1
    exact h1
  · have h3 : ((sortRecords idx).filter (fun r => r.checkedIn)).Sorted recLe := hs.filter _
    refine List.Pairwise.imp_of_mem ?_ h3
    intro a b ha hb hab
    have ha' := (List.mem_filter.mp ha).2
    have hb' := (List.mem_filter.mp hb).2
    have := (recLe_iff a b).mp hab
    simp at ha' hb'
    simp [ha', hb'] at this
    exact this
  · intro s
    apply sortRecords_filter_stable
    intro a b ha hb
    simp only [Bool.and_eq_true, decide_eq_true_eq] at ha hb
    exact (recLe_iff a b).mpr (Or.inl ⟨ha.1, Or.inr (by omega)⟩)

/-! ## Entries built by `fetchData` -/

theorem entryOf_processLeader {docs : List DocSnap} {d : DocSnap} (hd : d ∈ docs) {acc : Acc}
    (h : ∀ kv ∈ acc.map, EntryOf docs kv.1 kv.2) :
    ∀ kv ∈ (processLeader d.id d.data acc).map, EntryOf docs kv.1 kv.2 := by
  unfold processLeader
  cases ht : d.data.ticketId with
  | none => simpa using h
  | some t =>
    by_cases hte : t.isEmpty = true
    · simpa [hte] using h
    · simp only [hte]
      intro kv hkv
      rcases mem_mapSet hkv with rfl | hkv
      · exact ⟨rfl, d, hd, rfl, rfl, Or.inl ⟨rfl, ht, rfl, rfl⟩⟩
      · exact h kv hkv

theorem entryOf_processMember {docs : List DocSnap} {d : DocSnap} (hd : d ∈ docs) {acc : Acc}
    (h : ∀ kv ∈ acc.map, EntryOf docs kv.1 kv.2) {m : Member} {i : Nat}
    (hm : d.data.members[i]? = some m) :
    ∀ kv ∈ (processMember d.id d.data acc m i).map, EntryOf docs kv.1 kv.2 := by
  unfold processMember
  cases ht : m.ticketId with
  | none => simpa using h
  | some t =>
    by_cases hte : t.isEmpty = true
    · simpa [hte] using h
    · simp only [hte]
      intro kv hkv
      rcases mem_mapSet hkv with rfl | hkv
      · exact ⟨rfl, d, hd, rfl, rfl, Or.inr ⟨rfl, i, m, rfl, hm, ht, rfl, rfl⟩⟩
      · exact h kv hkv

theorem entryOf_processMembers {docs : List DocSnap} {d : DocSnap} (hd : d ∈ docs) :
    ∀ (ms : List Member) (acc : Acc) (i : Nat),
      (∀ kv ∈ acc.map, EntryOf docs kv.1 kv.2) →
      (∀ j m, ms[j]? = some m → d.data.members[i + j]? = some m) →
      ∀ kv ∈ (processMembers d.id d.data acc i ms).map, EntryOf docs kv.1 kv.2 := by
  intro ms
  induction ms with
  | nil => intro acc i h _; simpa [processMembers] using h
  | cons m ms ih =>
    intro acc i h hidx
    simp only [processMembers]
    apply ih
    · exact entryOf_processMember hd h (by simpa using hidx 0 m (by simp))
    · intro j m' hj
      have := hidx (j + 1) m' (by simpa using hj)
      rwa [show i + (j + 1) = i + 1 + j by omega] at this

theorem entryOf_foldl {docs : List DocSnap} :
    ∀ (ds : List DocSnap) (acc : Acc), (∀ d ∈ ds, d ∈ docs) →
      (∀ kv ∈ acc.map, EntryOf docs kv.1 kv.2) →
      ∀ kv ∈ (ds.foldl processDoc acc).map, EntryOf docs kv.1 kv.2 := by
  intro ds
  induction ds with
  | nil => intro acc _ h; simpa using h
  | cons d ds ih =>
    intro acc hds h
    simp only [List.foldl_cons]
    apply ih _ (fun x hx => hds x (List.mem_cons_of_mem _ hx))
    unfold processDoc
    exact entryOf_processMembers (hds d (by simp)) _ _ _
      (entryOf_processLeader (hds d (by simp)) h) (fun j m hj => by simpa using hj)

theorem entryOf_fetchData (docs : List DocSnap) :
    ∀ kv ∈ (fetchData docs).dataMap, EntryOf docs kv.1 kv.2 :=
  entryOf_foldl docs _ (fun _ h => h) (by simp)

theorem entryOf_mapGet {docs : List DocSnap} {k : Str} {e : Entry}
    (h : mapGet (fetchData docs).dataMap k = some e) : EntryOf docs k e :=
  entryOf_fetchData docs (k, e) (mem_of_mapGet h)
/-! ## One optimistic update of the index and the list -/

theorem deref_mapSet_entryData (m : DataMap) (tid k : Str) (e : Entry) :
    deref (mapSet m tid e) (.entryData k) =
      if k = tid then some e.data else deref m (.entryData k) := by
  unfold deref
  by_cases h : k = tid
  · subst h
    simp [mapGet_mapSet_self]
  · simp [h, mapGet_mapSet_ne m e h]

/-- The list after `updateList`, record by record. -/
theorem forall₂_updateList {m m' : DataMap} {T : Str} (b : Bool) (t : Option Timestamp)
    (hm : ∀ item, (deref m item = none ∧ deref m' item = none) ∨
      ∃ r r', deref m item = some r ∧ deref m' item = some r' ∧
        (r' = r ∨ (r.ticketId = T ∧ r'.ticketId = T))) :
    ∀ l : List DisplayItem,
      List.Forall₂ (StepRel T b t) (l.filterMap (deref m))
        ((updateList m' T b t l).filterMap (deref m')) := by
  intro l
  induction l with
  | nil => exact List.Forall₂.nil
  | cons item l ih =>
    unfold updateList at ih ⊢
    rcases hm item with ⟨h1, h2⟩ | ⟨r, r', h1, h2, h3⟩
    · simp only [List.filterMap_cons, List.map_cons, updateItem, h1, h2]
      exact ih
    · by_cases hT : r'.ticketId = T
      · have hrT : r.ticketId = T := by
          rcases h3 with rfl | ⟨h, _⟩
          · exact hT
          · exact h
        simp only [List.filterMap_cons, List.map_cons, updateItem, h1, h2]
        rw [if_pos hT]
        simp only [deref]
        exact List.Forall₂.cons ⟨fun _ => ⟨hT, rfl, rfl⟩, fun h => absurd hrT h⟩ ih
      · have hr : r' = r := by
          rcases h3 with rfl | ⟨_, h⟩
          · rfl
          · exact absurd h hT
        subst hr
        simp only [List.filterMap_cons, List.map_cons, updateItem, h1, h2]
        rw [if_neg hT]
        simp only [h2]
        exact List.Forall₂.cons ⟨fun h => absurd h hT, fun _ => rfl⟩ ih

theorem deref_cases_same (m : DataMap) (T : Str) (item : DisplayItem) :
    (deref m item = none ∧ deref m item = none) ∨
      ∃ r r', deref m item = some r ∧ deref m item = some r' ∧
        (r' = r ∨ (r.ticketId = T ∧ r'.ticketId = T)) := by
  cases h : deref m item with
  | none => exact Or.inl ⟨rfl, rfl⟩
  | some r => exact Or.inr ⟨r, r, rfl, rfl, Or.inl rfl⟩

theorem deref_cases_mapSet {m : DataMap} {tid : Str} {entry : Entry}
    (hget : mapGet m tid = some entry) (data : AttendeeRecord)
    (hT : data.ticketId = entry.data.ticketId) (item : DisplayItem) :
    (deref m item = none ∧ deref (mapSet m tid { entry with data := data }) item = none) ∨
      ∃ r r', deref m item = some r ∧
        deref (mapSet m tid { entry with data := data }) item = some r' ∧
        (r' = r ∨ (r.ticketId = entry.data.ticketId ∧ r'.ticketId = entry.data.ticketId)) := by
  cases item with
  | copy r => exact Or.inr ⟨r, r, rfl, rfl, Or.inl rfl⟩
  | entryData k =>
    rw [deref_mapSet_entryData]
    by_cases hk : k = tid
    · subst hk
      refine Or.inr ⟨entry.data, data, by simp [deref, hget], by simp, Or.inr ⟨rfl, hT⟩⟩
    · simp only [hk, if_false]
      exact deref_cases_same m _ _

/-- The records of the list after the index entry under `tid` got `data` and the
list was updated for its ticket id. -/
theorem forall₂_step_found {st : AppState} {tid : Str} {entry : Entry}
    (hget : mapGet st.dataMap tid = some entry) (data : AttendeeRecord)
    (hT : data.ticketId = entry.data.ticketId) (b : Bool) (t : Option Timestamp)
    (stats : Stats) :
    List.Forall₂ (StepRel entry.data.ticketId b t) (displayRecords st)
      (displayRecords
        { dataMap := mapSet st.dataMap tid { entry with data := data }
          dataList := updateList (mapSet st.dataMap tid { entry with data := data })
            entry.data.ticketId b t st.dataList
          stats := stats }) :=
  forall₂_updateList b t (deref_cases_mapSet hget data hT) st.dataList

/-- The records of the list after the list alone was updated for `T`. -/
theorem forall₂_step_missing (st : AppState) (T : Str) (b : Bool) (t : Option Timestamp)
    (stats : Stats) :
    List.Forall₂ (StepRel T b t) (displayRecords st)
      (displayRecords
        { dataMap := st.dataMap
          dataList := updateList st.dataMap T b t st.dataList
          stats := stats }) :=
  forall₂_updateList b t (deref_cases_same st.dataMap T) st.dataList
/-! ## The state invariant -/

theorem consistent_fetchData (docs : List DocSnap) : Consistent (fetchData docs) := by
  refine ⟨nodup_mapKeys_fetchData docs, fun kv h => (entryOf_fetchData docs kv h).1, ?_⟩
  intro item hitem
  have : (fetchData docs).dataList =
      (sortEntries (fetchData docs).dataMap).map (fun kv => DisplayItem.entryData kv.1) := rfl
  rw [this, List.mem_map] at hitem
  obtain ⟨kv, hkv, rfl⟩ := hitem
  exact List.mem_map.mpr ⟨kv, (sortEntries_perm _).subset hkv, rfl⟩

theorem agrees_of_consistent {st : AppState} (h : Consistent st) :
    ∀ r ∈ displayRecords st, AgreesWithIndex st.dataMap r := by
  obtain ⟨hnd, hkey, hitems⟩ := h
  intro r hr
  unfold displayRecords at hr
  rw [List.mem_filterMap] at hr
  obtain ⟨item, hitem, hd⟩ := hr
  have := hitems item hitem
  cases item with
  | copy r' =>
    simp only [deref, Option.some.injEq] at hd
    subst hd
    exact this
  | entryData k =>
    simp only [deref, Option.map_eq_some'] at hd
    obtain ⟨e, he, rfl⟩ := hd
    have hk := hkey (k, e) (mem_of_mapGet he)
    simp only at hk
    exact ⟨e, by rw [← hk]; exact he, rfl, rfl, rfl⟩

/-- The invariant survives one optimistic update of an existing entry. -/
theorem consistent_step {st : AppState} (h : Consistent st) {tid : Str} {entry : Entry}
    (hget : mapGet st.dataMap tid = some entry) (data : AttendeeRecord)
    (hT : data.ticketId = entry.data.ticketId) (stats : Stats) :
    Consistent
      { dataMap := mapSet st.dataMap tid { entry with data := data }
        dataList := updateList (mapSet st.dataMap tid { entry with data := data })
          entry.data.ticketId data.checkedIn data.checkInTime st.dataList
        stats := stats } := by
  obtain ⟨hnd, hkey, hitems⟩ := h
  have htid : tid = cleanId entry.data.ticketId := hkey (tid, entry) (mem_of_mapGet hget)
  have hmem : tid ∈ mapKeys st.dataMap :=
    (mapGet_isSome_iff _ _).mp (by simp [hget])
  have hkeys : mapKeys (mapSet st.dataMap tid { entry with data := data }) =
      mapKeys st.dataMap := by
    rw [mapKeys_mapSet, if_pos hmem]
  have hnew : ∀ r : AttendeeRecord, r.ticketId = entry.data.ticketId →
      AgreesWithIndex (mapSet st.dataMap tid { entry with data := data })
        { r with checkedIn := data.checkedIn, checkInTime := data.checkInTime } := by
    intro r hr
    refine ⟨{ entry with data := data }, ?_, ?_, rfl, rfl⟩
    · show mapGet _ (cleanId r.ticketId) = _
      rw [hr, ← htid, mapGet_mapSet_self]
    · exact hT.trans hr.symm
  refine ⟨by rw [hkeys]; exact hnd, ?_, ?_⟩
  · intro kv hkv
    rcases mem_mapSet hkv with rfl | hkv
    · show tid = cleanId data.ticketId
      rw [hT]
      exact htid
    · exact hkey kv hkv
  · intro item' hitem'
    simp only [updateList, List.mem_map] at hitem'
    obtain ⟨item, hitem, rfl⟩ := hitem'
    unfold updateItem
    have hold := hitems item hitem
    cases hd : deref (mapSet st.dataMap tid { entry with data := data }) item with
    | none =>
      simp only
      cases item with
      | copy r => simp [deref] at hd
      | entryData k =>
        simp only
        rw [hkeys]
        exact hold
    | some r =>
      simp only
      by_cases hr : r.ticketId = entry.data.ticketId
      · rw [if_pos hr]
        exact hnew r hr
      · rw [if_neg hr]
        cases item with
        | entryData k =>
          simp only
          rw [hkeys]
          exact hold
        | copy r' =>
          simp only [deref, Option.some.injEq] at hd
          subst hd
          obtain ⟨e, he, h1, h2, h3⟩ := hold
          refine ⟨e, ?_, h1, h2, h3⟩
          have hne : cleanId r'.ticketId ≠ tid := by
            intro heq
            rw [heq, hget] at he
            cases he
            exact hr h1.symm
          rw [mapGet_mapSet_ne _ _ hne]
          exact he
/-! ## C3: the display list and the index -/

theorem consistent_handleCheckIn {st : AppState} (h : Consistent st) {ticketId : Str}
    {now : Timestamp} {writeOk : Bool} {o : CheckInOutcome}
    (ho : handleCheckIn st ticketId now writeOk = .ok o) : Consistent o.state := by
  unfold handleCheckIn at ho
  split at ho
  · cases ho
  · rename_i tid _
    split at ho
    · cases ho; exact h
    · rename_i entry hget
      split at ho
      · cases ho; exact h
      · cases ho
        exact consistent_step h hget
          { entry.data with
            checkedIn := true, checkInTime := some now, status := some "checked-in".toList }
          rfl _

theorem consistent_toggleCheckIn {st : AppState} (h : Consistent st) {item : AttendeeRecord}
    (hitem : item ∈ displayRecords st) (hcanon : cleanId item.ticketId = item.ticketId)
    (now : Timestamp) (writeOk : Bool) :
    Consistent (toggleCheckIn st item now writeOk).state := by
  obtain ⟨e, he, hT, _, _⟩ := agrees_of_consistent h item hitem
  rw [hcanon, ← hT] at he
  unfold toggleCheckIn
  rw [← hT]
  simp only [he]
  exact consistent_step h he
    { e.data with
      checkedIn := !item.checkedIn
      checkInTime := if (!item.checkedIn) = true then some now else none
      status := some (if (!item.checkedIn) = true then "checked-in".toList
        else "pending".toList) }
    rfl _

theorem consistent_of_reachableCanonical {docs : List DocSnap} {st : AppState}
    (h : ReachableCanonical docs st) : Consistent st := by
  induction h with
  | fetched => exact consistent_fetchData docs
  | checkIn ticketId now writeOk o _ ho ih => exact consistent_handleCheckIn ih ho
  | toggle item now writeOk _ hitem hcanon ih =>
    exact consistent_toggleCheckIn ih hitem hcanon now writeOk

/-- C3 (fails on the code): after a check-in of `A1` and a toggle of its list
record, the list record still has status `checked-in` while the index entry has
`pending`; the list updaters never write `status`.  And a toggle of a record
whose stored ticket id is lower-case changes the list record but finds no index
entry under the raw ticket id. -/
theorem displayList_status_diverges :
    Reachable oneLeaderDocs checkedThenToggled ∧
    (displayRecords checkedThenToggled).map (fun r => (r.ticketId, r.checkedIn, r.status)) =
      [("A1".toList, false, some "checked-in".toList)] ∧
    (indexRecords checkedThenToggled).map (fun r => (r.ticketId, r.checkedIn, r.status)) =
      [("A1".toList, false, some "pending".toList)] ∧
    Reachable lowerCaseDocs lowerCaseToggled ∧
    (displayRecords lowerCaseToggled).map (fun r => (r.ticketId, r.checkedIn)) =
      [("a1".toList, true)] ∧
    (indexRecords lowerCaseToggled).map (fun r => (r.ticketId, r.checkedIn)) =
      [("a1".toList, false)] := by
  refine ⟨?_, by decide, by decide, ?_, by decide, by decide⟩
  · have h1 : Reachable oneLeaderDocs _ :=
      Reachable.checkIn "A1".toList ⟨100, 0⟩ true _ Reachable.fetched rfl
    exact Reachable.toggle _ ⟨200, 0⟩ true h1 (by decide)
  · exact Reachable.toggle _ ⟨100, 0⟩ true Reachable.fetched (by decide)

/-- C3 (amended): in the state built by `fetchData` and after any sequence of
`handleCheckIn` calls and of `toggleCheckIn` calls on list records whose ticket
id is its own canonical key, every record of the display list agrees with the
index entry of the same attendee on `checkedIn` and `checkInTime`. -/
theorem displayList_agrees_with_index (docs : List DocSnap) (st : AppState)
    (h : ReachableCanonical docs st) :
    ∀ r ∈ displayRecords st, ∃ e, mapGet st.dataMap (cleanId r.ticketId) = some e ∧
      e.data.ticketId = r.ticketId ∧ e.data.checkedIn = r.checkedIn ∧
      e.data.checkInTime = r.checkInTime :=
  agrees_of_consistent (consistent_of_reachableCanonical h)

/-- C3 (amended) on the state reached by a check-in of `A1` and a toggle of its
list record. -/
theorem displayList_agrees_with_index_witness :
    ReachableCanonical oneLeaderDocs checkedThenToggled ∧
    ∀ r ∈ displayRecords checkedThenToggled,
      ∃ e, mapGet checkedThenToggled.dataMap (cleanId r.ticketId) = some e ∧
        e.data.ticketId = r.ticketId ∧ e.data.checkedIn = r.checkedIn ∧
        e.data.checkInTime = r.checkInTime :=
  have h1 : ReachableCanonical oneLeaderDocs _ :=
    ReachableCanonical.checkIn "A1".toList ⟨100, 0⟩ true _ ReachableCanonical.fetched rfl
  have h2 : ReachableCanonical oneLeaderDocs checkedThenToggled :=
    ReachableCanonical.toggle _ ⟨200, 0⟩ true h1 (by decide) (by decide)
  ⟨h2, displayList_agrees_with_index oneLeaderDocs checkedThenToggled h2⟩

/-! ## C2: a successful check-in -/

theorem filterMap_eq_map_of_forall {α β : Type} {f : α → Option β} {g : α → β} :
    ∀ l : List α, (∀ a ∈ l, f a = some (g a)) → l.filterMap f = l.map g := by
  intro l
  induction l with
  | nil => intro _; rfl
  | cons a l ih =>
    intro h
    rw [List.filterMap_cons, h a (by simp), List.map_cons,
      ih (fun x hx => h x (List.mem_cons_of_mem _ hx))]

theorem displayRecords_fresh_step {m : DataMap} (hnd : (mapKeys m).Nodup)
    (hkey : ∀ kv ∈ m, kv.1 = cleanId kv.2.data.ticketId) {tid : Str} {entry : Entry}
    (hget : mapGet m tid = some entry) (data : AttendeeRecord)
    (hT : data.ticketId = entry.data.ticketId) (l : DataMap) (hl : ∀ kv ∈ l, kv ∈ m) :
    (updateList (mapSet m tid { entry with data := data }) entry.data.ticketId
        data.checkedIn data.checkInTime
        (l.map fun kv => DisplayItem.entryData kv.1)).filterMap
      (deref (mapSet m tid { entry with data := data })) =
    l.map fun kv => if kv.2.data.ticketId = entry.data.ticketId then data else kv.2.data := by
  have htid : tid = cleanId entry.data.ticketId := hkey (tid, entry) (mem_of_mapGet hget)
  unfold updateList
  rw [List.map_map, List.filterMap_map]
  apply filterMap_eq_map_of_forall
  intro kv hkv
  have hkv' : mapGet m kv.1 = some kv.2 := mapGet_of_mem hnd (hl kv hkv)
  simp only [Function.comp_apply, updateItem]
  rw [deref_mapSet_entryData]
  by_cases hk : kv.1 = tid
  · have he : kv.2 = entry := by
      rw [hk, hget] at hkv'
      exact (Option.some.inj hkv').symm
    rw [if_pos hk]
    simp only [if_pos hT, deref, he, if_true]
  · have hne : kv.2.data.ticketId ≠ entry.data.ticketId := by
      intro heq
      apply hk
      rw [htid, ← heq]
      exact hkey kv (hl kv hkv)
    rw [if_neg hk]
    simp only [deref, hkv', Option.map_some']
    rw [if_neg hne, if_neg hne]
    simp only [deref]
    rw [mapGet_mapSet_ne _ _ hk, hkv']
    rfl

theorem displayRecords_fetchData_entries (docs : List DocSnap) :
    displayRecords (fetchData docs) =
      (sortEntries (fetchData docs).dataMap).map (fun kv => kv.2.data) :=
  filterMap_deref_entries (nodup_mapKeys_fetchData docs) _
    (fun _ h => (sortEntries_perm _).subset h)

theorem newMembers_spec (members : List Member) (i : Nat) (now : Timestamp) :
    (newMembers members (i : Int) true (some now) "checked-in".toList).length = members.length ∧
    (newMembers members (i : Int) true (some now) "checked-in".toList)[i]? =
      (members[i]?).map (checkedInMember now) ∧
    ∀ j, j ≠ i →
      (newMembers members (i : Int) true (some now) "checked-in".toList)[j]? = members[j]? := by
  unfold newMembers
  simp only [Int.toNat_ofNat]
  refine ⟨List.length_modify _ _ _, ?_, fun j hj => List.getElem?_modify_ne _ _ (Ne.symm hj)⟩
  rw [List.getElem?_modify_eq]
  rfl

/-- C2: in the state built by `fetchData`, when the scan resolves to the key
`tid` of an entry that is not checked in and the remote write succeeds,
`handleCheckIn` reports success, adds 1 to `checkedIn` and leaves `total`,
stores the checked-in record (flag set, timestamp `now`) under `tid` and leaves
the other entries, replaces exactly the list records of that ticket id by the
same checked-in record, and issues one update to the entry's document: the three
leader fields for a leader; for a member the document's member sequence, of the
same length, with only the member at the entry's position replaced by its
checked-in version. -/
theorem handleCheckIn_success (docs : List DocSnap) (ticketId tid : Str) (entry : Entry)
    (now : Timestamp)
    (hres : resolveTicket (fetchData docs).dataMap ticketId = .ok tid)
    (hget : mapGet (fetchData docs).dataMap tid = some entry)
    (hnot : entry.data.checkedIn = false) :
    ∃ o, handleCheckIn (fetchData docs) ticketId now true = .ok o ∧
      o.scanResult = .success (checkedInRecord now entry.data) ∧
      o.state.stats.checkedIn = (fetchData docs).stats.checkedIn + 1 ∧
      o.state.stats.total = (fetchData docs).stats.total ∧
      mapGet o.state.dataMap tid = some { entry with data := checkedInRecord now entry.data } ∧
      (∀ k, k ≠ tid → mapGet o.state.dataMap k = mapGet (fetchData docs).dataMap k) ∧
      entry.data ∈ displayRecords (fetchData docs) ∧
      displayRecords o.state = (displayRecords (fetchData docs)).map
        (fun r => if r.ticketId = entry.data.ticketId then checkedInRecord now r else r) ∧
      ∃ d ∈ docs, d.id = entry.docId ∧ ∃ payload,
        o.updates = [{ docId := d.id, payload := payload }] ∧
        (entry.isLeader = true →
          d.data.ticketId = some entry.data.ticketId ∧
          payload = .leader true (some now) "checked-in".toList) ∧
        (entry.isLeader = false →
          ∃ (i : Nat) (m : Member) (ms : List Member),
            entry.memberIndex = (i : Int) ∧ d.data.members[i]? = some m ∧
            m.ticketId = some entry.data.ticketId ∧ payload = .members ms ∧
            ms.length = d.data.members.length ∧ ms[i]? = some (checkedInMember now m) ∧
            ∀ j, j ≠ i → ms[j]? = d.data.members[j]?) := by
  have hnd := nodup_mapKeys_fetchData docs
  have hkey : ∀ kv ∈ (fetchData docs).dataMap, kv.1 = cleanId kv.2.data.ticketId :=
    fun kv h => (entryOf_fetchData docs kv h).1
  have hmem : (tid, entry) ∈ (fetchData docs).dataMap := mem_of_mapGet hget
  have hsorted : (tid, entry) ∈ sortEntries (fetchData docs).dataMap :=
    (sortEntries_perm _).symm.subset hmem
  obtain ⟨htid, d, hd, hdoc, hfull, hrole⟩ := entryOf_fetchData docs (tid, entry) hmem
  simp only at htid hdoc hfull hrole
  refine ⟨{ state :=
              { dataMap := mapSet (fetchData docs).dataMap tid
                  { entry with data := checkedInRecord now entry.data }
                dataList := updateList
                  (mapSet (fetchData docs).dataMap tid
                    { entry with data := checkedInRecord now entry.data })
                  entry.data.ticketId true (some now) (fetchData docs).dataList
                stats := { (fetchData docs).stats with
                  checkedIn := (fetchData docs).stats.checkedIn + 1 } }
            scanResult := .success (checkedInRecord now entry.data)
            updates := [{ docId := entry.docId
                          payload := updatePayload entry true (some now) "checked-in".toList }] },
    ?_, rfl, rfl, rfl, ?_, ?_, ?_, ?_, ?_⟩
  · unfold handleCheckIn
    simp only [hres, hget, hnot, Bool.false_eq_true, if_false, if_true]
    rfl
  · exact mapGet_mapSet_self _ _ _
  · intro k hk
    exact mapGet_mapSet_ne _ _ hk
  · rw [displayRecords_fetchData_entries]
    exact List.mem_map.mpr ⟨(tid, entry), hsorted, rfl⟩
  · have hlist : (fetchData docs).dataList =
        (sortEntries (fetchData docs).dataMap).map (fun kv => DisplayItem.entryData kv.1) := rfl
    have hstep := displayRecords_fresh_step hnd hkey hget (checkedInRecord now entry.data) rfl
      (sortEntries (fetchData docs).dataMap) (fun _ h => (sortEntries_perm _).subset h)
    rw [displayRecords_fetchData_entries, List.map_map]
    unfold displayRecords
    simp only [hlist]
    refine hstep.trans (List.map_congr_left ?_)
    intro kv hkv
    simp only [Function.comp_apply]
    by_cases hT : kv.2.data.ticketId = entry.data.ticketId
    · have hk : kv.1 = tid := by
        rw [htid, ← hT]
        exact hkey kv ((sortEntries_perm _).subset hkv)
      have he : kv.2 = entry := by
        have := mapGet_of_mem hnd ((sortEntries_perm _).subset hkv)
        rw [hk, hget] at this
        exact (Option.some.inj this).symm
      rw [if_pos hT, if_pos hT, he]
    · rw [if_neg hT, if_neg hT]
  · refine ⟨d, hd, hdoc.symm, updatePayload entry true (some now) "checked-in".toList, ?_, ?_, ?_⟩
    · rw [← hdoc]
    · intro hl
      rcases hrole with ⟨_, ht, _, _⟩ | ⟨hf, _⟩
      · exact ⟨ht, by simp [updatePayload, hl]⟩
      · rw [hl] at hf
        cases hf
    · intro hl
      rcases hrole with ⟨ht, _⟩ | ⟨_, i, m, hi, hm, ht, _, _⟩
      · rw [hl] at ht
        cases ht
      · obtain ⟨h1, h2, h3⟩ := newMembers_spec d.data.members i now
        have hp : updatePayload entry true (some now) "checked-in".toList =
            .members (newMembers d.data.members (i : Int) true (some now) "checked-in".toList) := by
          simp only [updatePayload, hl, Bool.false_eq_true, if_false, hfull, hi]
        refine ⟨i, m, _, hi, hm, ht, hp, h1, ?_, h3⟩
        rw [h2, hm]
        rfl

/-- C2 on the two-member document: the scan `m1 ` resolves to the key `M1`. -/
theorem handleCheckIn_success_witness :
    ∃ entry, resolveTicket (fetchData twoMemberDocs).dataMap " m1 ".toList = .ok "M1".toList ∧
      mapGet (fetchData twoMemberDocs).dataMap "M1".toList = some entry ∧
      entry.data.checkedIn = false ∧
      ∃ o, handleCheckIn (fetchData twoMemberDocs) " m1 ".toList ⟨100, 0⟩ true = .ok o ∧
        o.state.stats.checkedIn = (fetchData twoMemberDocs).stats.checkedIn + 1 ∧
        o.state.stats.total = (fetchData twoMemberDocs).stats.total :=
  ⟨_, rfl, rfl, rfl,
    (handleCheckIn_success twoMemberDocs " m1 ".toList "M1".toList _ ⟨100, 0⟩ rfl rfl rfl).imp
      fun _ h => ⟨h.1, h.2.2.1, h.2.2.2.1⟩⟩

/-! ## Canonical keys -/

theorem forall_alnumChars_upper_stable : ∀ c ∈ alnumChars,
    isWhiteSpace (upperChar c) = isWhiteSpace c ∧ upperChar (upperChar c) = upperChar c := by
  decide

theorem upperChar_stable (c : Char) :
    isWhiteSpace (upperChar c) = isWhiteSpace c ∧ upperChar (upperChar c) = upperChar c := by
  by_cases h : 97 ≤ c.toNat ∧ c.toNat ≤ 122
  · apply forall_alnumChars_upper_stable c (mem_alnumChars _)
    simp only [isAsciiAlnum, Bool.or_eq_true, Bool.and_eq_true, decide_eq_true_eq]
    omega
  · have : upperChar c = c := by simp only [upperChar, h, if_false]
    rw [this]
    exact ⟨rfl, this⟩

theorem dropWhile_head_not (l : Str) :
    ∀ c r, l.dropWhile isWhiteSpace = c :: r → isWhiteSpace c = false := by
  induction l with
  | nil => intro c r h; simp at h
  | cons a l ih =>
    intro c r h
    by_cases ha : isWhiteSpace a = true
    · rw [List.dropWhile_cons_of_pos ha] at h
      exact ih c r h
    · rw [List.dropWhile_cons_of_neg ha] at h
      cases h
      simpa using ha

theorem trim_trim (l : Str) : trim (trim l) = trim l := by
  unfold trim
  have hpre : List.IsPrefix ((l.dropWhile isWhiteSpace).rdropWhile isWhiteSpace)
      (l.dropWhile isWhiteSpace) := List.rdropWhile_prefix _ _
  have hdrop : ((l.dropWhile isWhiteSpace).rdropWhile isWhiteSpace).dropWhile isWhiteSpace =
      (l.dropWhile isWhiteSpace).rdropWhile isWhiteSpace := by
    cases hR : (l.dropWhile isWhiteSpace).rdropWhile isWhiteSpace with
    | nil => rfl
    | cons c r =>
      rw [hR] at hpre
      obtain ⟨s, hs⟩ := hpre
      have hc := dropWhile_head_not l c (r ++ s) (by rw [← hs]; rfl)
      rw [List.dropWhile_cons_of_neg (by simp [hc])]
  rw [hdrop, List.rdropWhile_idempotent]

theorem trim_map_upper (l : Str) : trim (l.map upperChar) = (trim l).map upperChar := by
  have hp : (isWhiteSpace ∘ upperChar) = isWhiteSpace := funext fun c => (upperChar_stable c).1
  unfold trim List.rdropWhile
  rw [List.dropWhile_map, hp, ← List.map_reverse, List.dropWhile_map, hp, List.map_reverse]

theorem cleanId_idem (s : Str) : cleanId (cleanId s) = cleanId s := by
  unfold cleanId toUpperCase
  rw [trim_map_upper, trim_trim, List.map_map]
  exact List.map_congr_left (fun c _ => (upperChar_stable c).2)
/-! ## Toggling twice -/

theorem toggled_stats (st : AppState) (item : AttendeeRecord) (now : Timestamp) (ok : Bool) :
    (toggled st item now ok).stats =
      { st.stats with
        checkedIn := if (!item.checkedIn) = true then st.stats.checkedIn + 1
          else st.stats.checkedIn - 1 } := by
  unfold toggled toggleCheckIn
  split <;> rfl

theorem toggled_mapGet (st : AppState) (item : AttendeeRecord) (now : Timestamp) (ok : Bool)
    (k : Str) :
    mapGet (toggled st item now ok).dataMap k =
      if k = item.ticketId then
        (mapGet st.dataMap k).map fun e => { e with data := toggledData item now e.data }
      else mapGet st.dataMap k := by
  unfold toggled toggleCheckIn
  split
  · rename_i e he
    by_cases hk : k = item.ticketId
    · subst hk
      simp only [if_true, he, Option.map_some']
      exact mapGet_mapSet_self _ _ _
    · simp only [hk, if_false]
      exact mapGet_mapSet_ne _ _ hk
  · rename_i he
    by_cases hk : k = item.ticketId
    · subst hk
      simp [he]
    · simp [hk]

theorem toggled_rel (st : AppState) (item : AttendeeRecord) (now : Timestamp) (ok : Bool)
    (h : ∀ e, mapGet st.dataMap item.ticketId = some e → e.data.ticketId = item.ticketId) :
    List.Forall₂
      (StepRel item.ticketId (!item.checkedIn)
        (if (!item.checkedIn) = true then some now else none))
      (displayRecords st) (displayRecords (toggled st item now ok)) := by
  cases he : mapGet st.dataMap item.ticketId with
  | some e =>
    have hT := h e he
    have := forall₂_step_found he (toggledData item now e.data) rfl (!item.checkedIn)
      (if (!item.checkedIn) = true then some now else none)
      { st.stats with
        checkedIn := if (!item.checkedIn) = true then st.stats.checkedIn + 1
          else st.stats.checkedIn - 1 }
    rw [hT] at this
    simp only [toggled, toggleCheckIn, he]
    exact this
  | none =>
    simp only [toggled, toggleCheckIn, he]
    exact forall₂_step_missing st item.ticketId _ _ _

theorem forall₂_mem_right {α : Type} {R : α → α → Prop} {l l' : List α}
    (h : List.Forall₂ R l l') : ∀ y ∈ l', ∃ x ∈ l, R x y := by
  induction h with
  | nil => intro y hy; simp at hy
  | cons hr _ ih =>
    intro y hy
    rcases List.mem_cons.mp hy with rfl | hy
    · exact ⟨_, by simp, hr⟩
    · obtain ⟨x, hx, hxy⟩ := ih y hy
      exact ⟨x, List.mem_cons_of_mem _ hx, hxy⟩

theorem forall₂_mem_left {α : Type} {R : α → α → Prop} {l l' : List α}
    (h : List.Forall₂ R l l') : ∀ x ∈ l, ∃ y ∈ l', R x y := by
  induction h with
  | nil => intro x hx; simp at hx
  | cons hr _ ih =>
    intro x hx
    rcases List.mem_cons.mp hx with rfl | hx
    · exact ⟨_, by simp, hr⟩
    · obtain ⟨y, hy, hxy⟩ := ih x hx
      exact ⟨y, List.mem_cons_of_mem _ hy, hxy⟩

theorem forall₂_map_eq {α β : Type} {R : α → α → Prop} {f g : α → β} {l l' : List α}
    (h : List.Forall₂ R l l') (hfg : ∀ x y, R x y → f x = g y) : l.map f = l'.map g := by
  induction h with
  | nil => rfl
  | cons hr _ ih => rw [List.map_cons, List.map_cons, hfg _ _ hr, ih]

/-- In the state built by `fetchData`, an entry found under the raw ticket id of
a list record is the entry of that record. -/
theorem fetchData_raw_lookup (docs : List DocSnap) {item : AttendeeRecord}
    (hitem : item ∈ displayRecords (fetchData docs)) {e : Entry}
    (he : mapGet (fetchData docs).dataMap item.ticketId = some e) :
    e.data.ticketId = item.ticketId ∧ e.data.checkedIn = item.checkedIn := by
  have hC := consistent_fetchData docs
  obtain ⟨e0, he0, h1, h2, _⟩ := agrees_of_consistent hC item hitem
  have hkey := hC.2.1 (item.ticketId, e) (mem_of_mapGet he)
  simp only at hkey
  have hcanon : cleanId item.ticketId = item.ticketId := by
    rw [hkey, cleanId_idem]
  rw [hcanon, he] at he0
  cases he0
  exact ⟨h1, h2⟩

theorem fetchData_same_ticket_flag (docs : List DocSnap) {item r : AttendeeRecord}
    (hitem : item ∈ displayRecords (fetchData docs))
    (hr : r ∈ displayRecords (fetchData docs)) (hT : r.ticketId = item.ticketId) :
    r.checkedIn = item.checkedIn := by
  have hC := consistent_fetchData docs
  obtain ⟨e0, he0, _, h2, _⟩ := agrees_of_consistent hC item hitem
  obtain ⟨e1, he1, _, h4, _⟩ := agrees_of_consistent hC r hr
  rw [hT, he0] at he1
  cases he1
  rw [← h2, ← h4]

/-- Toggling twice, for every list record: in the state built by `fetchData`,
toggling a list record and then toggling the resulting record of the same ticket
id restores the `checkedIn` flag of every list record and of every index entry,
and restores the counters; after whichever toggle unchecks the attendee, the list
records of that ticket id are unchecked with `checkInTime` null.  The index entry
is only reached when the raw ticket id is a key: the last two parts say nothing
about the entry of a record whose stored id is not its own key. -/
theorem toggleCheckIn_twice (docs : List DocSnap) (item item' : AttendeeRecord)
    (now1 now2 : Timestamp) (ok1 ok2 : Bool)
    (hitem : item ∈ displayRecords (fetchData docs))
    (hitem' : item' ∈ displayRecords (toggled (fetchData docs) item now1 ok1))
    (hsame : item'.ticketId = item.ticketId) :
    item'.checkedIn = (!item.checkedIn) ∧
    (∃ r ∈ displayRecords (toggled (toggled (fetchData docs) item now1 ok1) item' now2 ok2),
      r.ticketId = item.ticketId) ∧
    (∀ r ∈ displayRecords (toggled (toggled (fetchData docs) item now1 ok1) item' now2 ok2),
      r.ticketId = item.ticketId → r.checkedIn = item.checkedIn) ∧
    (displayRecords (toggled (toggled (fetchData docs) item now1 ok1) item' now2 ok2)).map
        (fun r => (r.ticketId, r.checkedIn)) =
      (displayRecords (fetchData docs)).map (fun r => (r.ticketId, r.checkedIn)) ∧
    (∀ k, (mapGet (toggled (toggled (fetchData docs) item now1 ok1) item' now2 ok2).dataMap
          k).map (fun e => e.data.checkedIn) =
        (mapGet (fetchData docs).dataMap k).map (fun e => e.data.checkedIn)) ∧
    (toggled (toggled (fetchData docs) item now1 ok1) item' now2 ok2).stats =
      (fetchData docs).stats ∧
    (item.checkedIn = true →
      (∀ r ∈ displayRecords (toggled (fetchData docs) item now1 ok1),
        r.ticketId = item.ticketId → r.checkedIn = false ∧ r.checkInTime = none) ∧
      ∀ e, mapGet (toggled (fetchData docs) item now1 ok1).dataMap item.ticketId = some e →
        e.data.checkedIn = false ∧ e.data.checkInTime = none) ∧
    (item.checkedIn = false →
      (∀ r ∈ displayRecords (toggled (toggled (fetchData docs) item now1 ok1) item' now2 ok2),
        r.ticketId = item.ticketId → r.checkedIn = false ∧ r.checkInTime = none) ∧
      ∀ e, mapGet (toggled (toggled (fetchData docs) item now1 ok1) item' now2 ok2).dataMap
          item.ticketId = some e →
        e.data.checkedIn = false ∧ e.data.checkInTime = none) := by
  have hraw : ∀ e, mapGet (fetchData docs).dataMap item.ticketId = some e →
      e.data.ticketId = item.ticketId ∧ e.data.checkedIn = item.checkedIn :=
    fun e he => fetchData_raw_lookup docs hitem he
  have F1 := toggled_rel (fetchData docs) item now1 ok1 (fun e he => (hraw e he).1)
  -- the record toggled second carries the flipped flag
  have hflag : item'.checkedIn = (!item.checkedIn) := by
    obtain ⟨x, _, hx⟩ := forall₂_mem_right F1 item' hitem'
    by_cases hxT : x.ticketId = item.ticketId
    · exact (hx.1 hxT).2.1
    · rw [hx.2 hxT] at hsame
      exact absurd hsame hxT
  have hraw1 : ∀ e, mapGet (toggled (fetchData docs) item now1 ok1).dataMap item'.ticketId =
      some e → e.data.ticketId = item'.ticketId := by
    intro e he
    rw [hsame, toggled_mapGet, if_pos rfl] at he
    cases h0 : mapGet (fetchData docs).dataMap item.ticketId with
    | none => rw [h0] at he; cases he
    | some e0 =>
      rw [h0] at he
      cases he
      rw [hsame]
      exact (hraw e0 h0).1
  have F2 := toggled_rel (toggled (fetchData docs) item now1 ok1) item' now2 ok2 hraw1
  rw [hsame, hflag, Bool.not_not] at F2
  refine ⟨hflag, ?_, ?_, ?_, ?_, ?_, ?_, ?_⟩
  · obtain ⟨y, hy, hxy⟩ := forall₂_mem_left F1 item hitem
    obtain ⟨z, hz, hyz⟩ := forall₂_mem_left F2 y hy
    exact ⟨z, hz, (hyz.1 (hxy.1 rfl).1).1⟩
  · intro r hr hrT
    obtain ⟨x, _, hx⟩ := forall₂_mem_right F2 r hr
    by_cases hxT : x.ticketId = item.ticketId
    · exact (hx.1 hxT).2.1
    · rw [hx.2 hxT] at hrT
      exact absurd hrT hxT
  · have h01 : (displayRecords (fetchData docs)).map
          (fun r => (r.ticketId, if r.ticketId = item.ticketId then item.checkedIn
            else r.checkedIn)) =
        (displayRecords (toggled (fetchData docs) item now1 ok1)).map
          (fun r => (r.ticketId, if r.ticketId = item.ticketId then item.checkedIn
            else r.checkedIn)) := by
      apply forall₂_map_eq F1
      intro x y hxy
      by_cases hxT : x.ticketId = item.ticketId
      · rw [hxT, (hxy.1 hxT).1, if_pos rfl, if_pos rfl]
      · rw [hxy.2 hxT]
    have h12 : (displayRecords (toggled (fetchData docs) item now1 ok1)).map
          (fun r => (r.ticketId, if r.ticketId = item.ticketId then item.checkedIn
            else r.checkedIn)) =
        (displayRecords (toggled (toggled (fetchData docs) item now1 ok1) item' now2 ok2)).map
          (fun r => (r.ticketId, r.checkedIn)) := by
      apply forall₂_map_eq F2
      intro x y hxy
      by_cases hxT : x.ticketId = item.ticketId
      · rw [if_pos hxT, hxT, (hxy.1 hxT).1, (hxy.1 hxT).2.1]
      · rw [if_neg hxT, hxy.2 hxT]
    have h00 : (displayRecords (fetchData docs)).map (fun r => (r.ticketId, r.checkedIn)) =
        (displayRecords (fetchData docs)).map
          (fun r => (r.ticketId, if r.ticketId = item.ticketId then item.checkedIn
            else r.checkedIn)) := by
      apply List.map_congr_left
      intro r hr
      by_cases hrT : r.ticketId = item.ticketId
      · rw [if_pos hrT, fetchData_same_ticket_flag docs hitem hr hrT]
      · rw [if_neg hrT]
    rw [← h12, ← h01, ← h00]
  · intro k
    rw [toggled_mapGet, toggled_mapGet, hsame]
    by_cases hk : k = item.ticketId
    · subst hk
      simp only [if_true]
      cases h0 : mapGet (fetchData docs).dataMap item.ticketId with
      | none => rfl
      | some e0 =>
        simp only [Option.map_some', toggledData, hflag, Bool.not_not]
        rw [(hraw e0 h0).2]
    · simp only [hk, if_false]
  · rw [toggled_stats, toggled_stats, hflag]
    cases hc : item.checkedIn <;> simp
  · intro hc
    rw [hc] at F1
    refine ⟨?_, ?_⟩
    · intro r hr hrT
      obtain ⟨x, _, hx⟩ := forall₂_mem_right F1 r hr
      by_cases hxT : x.ticketId = item.ticketId
      · exact ⟨(hx.1 hxT).2.1, (hx.1 hxT).2.2⟩
      · rw [hx.2 hxT] at hrT
        exact absurd hrT hxT
    · intro e he
      rw [toggled_mapGet, if_pos rfl] at he
      cases h0 : mapGet (fetchData docs).dataMap item.ticketId with
      | none => rw [h0] at he; cases he
      | some e0 =>
        rw [h0] at he
        cases he
        simp [toggledData, hc]
  · intro hc
    rw [hc] at F2
    refine ⟨?_, ?_⟩
    · intro r hr hrT
      obtain ⟨x, _, hx⟩ := forall₂_mem_right F2 r hr
      by_cases hxT : x.ticketId = item.ticketId
      · exact ⟨(hx.1 hxT).2.1, by simpa using (hx.1 hxT).2.2⟩
      · rw [hx.2 hxT] at hrT
        exact absurd hrT hxT
    · intro e he
      rw [toggled_mapGet, hsame, if_pos rfl] at he
      cases h1 : mapGet (toggled (fetchData docs) item now1 ok1).dataMap item.ticketId with
      | none => rw [h1] at he; cases he
      | some e1 =>
        rw [h1] at he
        cases he
        simp [toggledData, hflag, hc]

/-- The double toggle on the checked-in leader `A1`: undo, then check in again. -/
theorem toggleCheckIn_twice_witness :
    checkedLeaderRecord ∈ displayRecords (fetchData checkedLeaderDocs) ∧
    uncheckedLeaderRecord ∈
      displayRecords (toggled (fetchData checkedLeaderDocs) checkedLeaderRecord ⟨100, 0⟩ true) ∧
    (toggled (toggled (fetchData checkedLeaderDocs) checkedLeaderRecord ⟨100, 0⟩ true)
        uncheckedLeaderRecord ⟨200, 0⟩ true).stats = (fetchData checkedLeaderDocs).stats ∧
    (∀ r ∈ displayRecords (toggled (fetchData checkedLeaderDocs) checkedLeaderRecord ⟨100, 0⟩ true),
      r.ticketId = checkedLeaderRecord.ticketId → r.checkedIn = false ∧ r.checkInTime = none) :=
  have h := toggleCheckIn_twice checkedLeaderDocs checkedLeaderRecord uncheckedLeaderRecord
    ⟨100, 0⟩ ⟨200, 0⟩ true true (by decide) (by decide) rfl
  ⟨by decide, by decide, h.2.2.2.2.2.1, (h.2.2.2.2.2.2.1 rfl).1⟩

/-! ## C9: the search filter -/

theorem includes_nil (s : Str) : includes s [] = true := by
  cases s <;> simp [includes, List.isPrefixOf]

/-- With the empty query every record matches through its ticket id, and the
list is returned as it is. -/
theorem filteredList_empty_query (l : List AttendeeRecord) : filteredList l [] = .ok l := by
  induction l with
  | nil => rfl
  | cons r l ih =>
    have : matchesQuery r [] = .ok true := by
      simp [matchesQuery, toLowerCase, includes_nil]
    simp only [filteredList, this, ih, if_true]

/-- When every record has a name, the filter returns, in order, the records
that match through ticket id, name or team. -/
theorem filteredList_of_names (l : List AttendeeRecord) (q : Str)
    (h : ∀ r ∈ l, r.name ≠ none) : filteredList l q = .ok (l.filter (matchesSpec q)) := by
  induction l with
  | nil => rfl
  | cons r l ih =>
    have hr := h r (by simp)
    have ih' := ih (fun x hx => h x (List.mem_cons_of_mem _ hx))
    have hm : matchesQuery r q = .ok (matchesSpec q r) := by
      unfold matchesQuery matchesSpec
      cases hn : r.name with
      | none => exact absurd hn hr
      | some n =>
        by_cases h1 : includes (toLowerCase r.ticketId) (toLowerCase q) = true
        · simp [h1]
        · by_cases h2 : includes (toLowerCase n) (toLowerCase q) = true
          · simp [h1, h2]
          · cases r.team <;> simp [h1, h2]
    simp only [filteredList, hm, ih', List.filter_cons]

/-- C9 (fails on the code): the list built from a document without `name` holds
a record whose name is absent; with the query `x`, which does not occur in the
ticket id `T1`, the filter reads `item.name.toLowerCase` and raises a
`TypeError`.  The empty query and a query matching the ticket id return. -/
theorem filteredList_raises_on_absent_name :
    (displayRecords (fetchData namelessDocs)).map (fun r => (r.ticketId, r.name, r.team)) =
      [("T1".toList, none, some "Orion".toList)] ∧
    filteredList (displayRecords (fetchData namelessDocs)) "x".toList = .error .typeError ∧
    filteredList (displayRecords (fetchData namelessDocs)) "t1".toList =
      .ok (displayRecords (fetchData namelessDocs)) ∧
    filteredList (displayRecords (fetchData namelessDocs)) [] =
      .ok (displayRecords (fetchData namelessDocs)) := by
  refine ⟨by decide, ?_, ?_, ?_⟩ <;> rfl

/-! ## The normaliser returns on upper-case text -/

theorem valOK_of_not_obj {v : JVal} (h : ∀ kvs, v ≠ .obj kvs) : ValOK v :=
  fun kvs hv => absurd hv (h kvs)

theorem complete_ok {stack : List Frame} {result : Option JVal} {v : JVal} {st : PState}
    (hs : ∀ f ∈ stack, FrameOK f) (hr : ∀ w, result = some w → ValOK w) (hv : ValOK v)
    (h : complete stack result v = some st) : PStateOK st := by
  unfold complete at h
  split at h
  · split at h
    · cases h
      exact ⟨by simp, trivial, fun w hw => by cases hw; exact hv⟩
    · cases h
  · cases h
    refine ⟨?_, trivial, hr⟩
    intro f hf
    rcases List.mem_cons.mp hf with rfl | hf
    · trivial
    · exact hs f (List.mem_cons_of_mem _ hf)
  · rename_i done k rest
    cases h
    have hf := hs (.obj done (some k)) (by simp)
    refine ⟨?_, trivial, hr⟩
    intro f hf'
    rcases List.mem_cons.mp hf' with rfl | hf'
    · refine ⟨?_, fun k' hk' => by cases hk'⟩
      intro kv hkv
      rcases List.mem_cons.mp hkv with rfl | hkv
      · exact hf.2 k rfl
      · exact hf.1 kv hkv
    · exact hs f (List.mem_cons_of_mem _ hf')
  · cases h

theorem startValue_ok {st st' : PState} {c : Char} (hst : PStateOK st)
    (h : startValue st c = some st') : PStateOK st' := by
  obtain ⟨hs, _, hr⟩ := hst
  unfold startValue at h
  have hpush : ∀ f, FrameOK f → ∀ g ∈ f :: st.stack, FrameOK g := by
    intro f hf g hg
    rcases List.mem_cons.mp hg with rfl | hg
    · exact hf
    · exact hs g hg
  have hbool : ∀ b, ValOK (.bool b) := fun b => valOK_of_not_obj (fun _ h => by cases h)
  have hnull : ValOK .null := valOK_of_not_obj (fun _ h => by cases h)
  repeat' split at h
  all_goals first
    | (cases h; exact ⟨hpush _ ⟨by simp, by simp⟩, trivial, hr⟩)
    | (cases h; exact ⟨hpush _ trivial, trivial, hr⟩)
    | (cases h; exact ⟨hs, trivial, hr⟩)
    | (cases h; exact ⟨hs, hbool _, hr⟩)
    | (cases h; exact ⟨hs, hnull, hr⟩)
    | cases h

theorem stepAfter_ok {st st' : PState} {c : Char} (hst : PStateOK st)
    (h : stepAfter st c = some st') : PStateOK st' := by
  obtain ⟨hs, hm, hr⟩ := hst
  unfold stepAfter at h
  split at h
  · cases h; exact ⟨hs, hm, hr⟩
  · split at h
    · split at h
      · cases h; exact ⟨hs, trivial, hr⟩
      · cases h; exact ⟨hs, trivial, hr⟩
      · cases h
    · split at h
      · split at h
        · rename_i done rest hstack
          have hrest : ∀ f ∈ rest, FrameOK f :=
            fun f hf => hs f (by rw [hstack]; exact List.mem_cons_of_mem _ hf)
          exact complete_ok hrest hr (valOK_of_not_obj (fun _ h => by cases h)) h
        · cases h
      · split at h
        · split at h
          · rename_i done rest hstack
            have hrest : ∀ f ∈ rest, FrameOK f :=
              fun f hf => hs f (by rw [hstack]; exact List.mem_cons_of_mem _ hf)
            have hf : FrameOK (.obj done none) := hs _ (by rw [hstack]; simp)
            refine complete_ok hrest hr ?_ h
            intro kvs hk kv hkv
            cases hk
            exact hf.1 kv (by simpa using hkv)
          · cases h
        · cases h

theorem numValue_ok {a : NumAcc} {v : JVal} (h : numValue a = some v) : ValOK v := by
  unfold numValue at h
  split at h
  all_goals first
    | (cases h; exact valOK_of_not_obj (fun _ h => by cases h))
    | cases h

theorem endNum_ok {st st' : PState} {a : NumAcc} {c : Char} (hst : PStateOK st)
    (h : endNum st a c = some st') : PStateOK st' := by
  unfold endNum at h
  split at h
  · rename_i v hv
    split at h
    · rename_i st1 h1
      exact stepAfter_ok (complete_ok hst.1 hst.2.2 (numValue_ok hv) h1) h
    · cases h
  · cases h

theorem stepNum_ok {st st' : PState} {a : NumAcc} {c : Char} (hst : PStateOK st)
    (h : stepNum st a c = some st') : PStateOK st' := by
  have hset : ∀ b : NumAcc, PStateOK { st with mode := .num b } :=
    fun b => ⟨hst.1, trivial, hst.2.2⟩
  unfold stepNum at h
  repeat' split at h
  all_goals first
    | (cases h; exact hset _)
    | exact endNum_ok hst h
    | cases h

theorem endStr_ok {st st' : PState} {isKey : Bool} {s : Str} (hst : PStateOK st)
    (hs : isKey = true → NoLower s) (h : endStr st isKey s = some st') : PStateOK st' := by
  unfold endStr at h
  split at h
  · rename_i hk
    split at h
    · rename_i done rest hstack
      cases h
      have hf : FrameOK (.obj done none) := hst.1 _ (by rw [hstack]; simp)
      refine ⟨?_, trivial, hst.2.2⟩
      intro f hf'
      rcases List.mem_cons.mp hf' with rfl | hf'
      · exact ⟨hf.1, fun k hk' => by cases hk'; exact hs hk⟩
      · exact hst.1 f (by rw [hstack]; exact List.mem_cons_of_mem _ hf')
    · cases h
  · exact complete_ok hst.1 hst.2.2 (valOK_of_not_obj (fun _ h => by cases h)) h

theorem escChar_upper {c x : Char} (h : escChar c = some x) : upperChar x = x := by
  unfold escChar at h
  repeat' split at h
  all_goals first
    | (cases h; decide)
    | cases h

theorem noLower_cons {c : Char} {acc : Str} (hc : upperChar c = c) (h : NoLower acc) :
    NoLower (c :: acc) := by
  intro x hx
  rcases List.mem_cons.mp hx with rfl | hx
  · exact hc
  · exact h x hx

theorem step_ok {st st' : PState} {c : Char} (hst : PStateOK st) (hc : upperChar c = c)
    (h : step st c = some st') : PStateOK st' := by
  have hsame : ∀ m : Mode, ModeOK m → PStateOK { st with mode := m } :=
    fun m hm => ⟨hst.1, hm, hst.2.2⟩
  have hpop : ∀ f rest, st.stack = f :: rest → ∀ g ∈ rest, FrameOK g :=
    fun f rest hstack g hg => hst.1 g (by rw [hstack]; exact List.mem_cons_of_mem _ hg)
  have hm := hst.2.1
  unfold step at h
  split at h
  · -- value
    split at h
    · cases h; exact hst
    · exact startValue_ok hst h
  · -- valueOrEnd
    split at h
    · cases h; exact hst
    · split at h
      · split at h
        · rename_i hstack
          exact complete_ok (hpop _ _ hstack) hst.2.2
            (valOK_of_not_obj (fun _ h => by cases h)) h
        · cases h
      · exact startValue_ok hst h
  · -- keyOrEnd
    split at h
    · cases h; exact hst
    · split at h
      · split at h
        · rename_i hstack
          refine complete_ok (hpop _ _ hstack) hst.2.2 ?_ h
          intro kvs hk kv hkv
          cases hk
          simp at hkv
        · cases h
      · split at h
        · cases h
          exact hsame _ (fun x hx => by simp at hx)
        · cases h
  · -- key
    split at h
    · cases h; exact hst
    · split at h
      · cases h
        exact hsame _ (fun x hx => by simp at hx)
      · cases h
  · -- colon
    split at h
    · cases h; exact hst
    · split at h
      · cases h; exact hsame _ trivial
      · cases h
  · -- after
    exact stepAfter_ok hst h
  · -- str
    rename_i isKey acc hmode
    rw [hmode] at hm
    have hacc : isKey = true → NoLower acc := by
      intro hk; subst hk; exact hm
    split at h
    · refine endStr_ok hst ?_ h
      intro hk x hx
      exact hacc hk x (by simpa using hx)
    · split at h
      · cases h
        refine hsame _ ?_
        cases isKey
        · trivial
        · exact hacc rfl
      · split at h
        · cases h
        · cases h
          refine hsame _ ?_
          cases isKey
          · trivial
          · exact noLower_cons hc (hacc rfl)
  · -- esc
    rename_i isKey acc hmode
    rw [hmode] at hm
    split at h
    · rename_i hu
      subst hu
      exact absurd hc (by decide)
    · split at h
      · rename_i x hx
        cases h
        refine hsame _ ?_
        cases isKey
        · trivial
        · exact noLower_cons (escChar_upper hx) hm
      · cases h
  · -- uni
    rename_i hmode
    rw [hmode] at hm
    exact absurd hm (by simp [ModeOK])
  · -- num
    exact stepNum_ok hst h
  · -- lit
    rename_i rest v hmode
    rw [hmode] at hm
    split at h
    · cases h
    · split at h
      · exact complete_ok hst.1 hst.2.2 hm h
      · cases h
    · split at h
      · cases h; exact hsame _ hm
      · cases h

theorem foldlM_step_ok : ∀ (s : Str) (st st' : PState), PStateOK st → NoLower s →
    s.foldlM step st = some st' → PStateOK st' := by
  intro s
  induction s with
  | nil =>
    intro st st' hst _ h
    cases h
    exact hst
  | cons c s ih =>
    intro st st' hst hs h
    rw [List.foldlM_cons] at h
    cases h1 : step st c with
    | none => rw [h1] at h; cases h
    | some st1 =>
      rw [h1] at h
      exact ih st1 st' (step_ok hst (hs c (by simp)) h1)
        (fun x hx => hs x (List.mem_cons_of_mem _ hx)) h

theorem jsonParse_ok {s : Str} {json : JVal} (hs : NoLower s) (h : jsonParse s = some json) :
    ValOK json := by
  unfold jsonParse at h
  split at h
  · rename_i st hst
    have hinit : PStateOK { stack := [], mode := .value, result := none } :=
      ⟨by simp, trivial, fun v hv => by cases hv⟩
    have hok : PStateOK st := foldlM_step_ok s _ st hinit hs hst
    unfold finish at h
    split at h
    · rename_i hres
      cases h
      exact hok.2.2 _ hres
    · exact numValue_ok h
    · cases h
  · cases h

theorem getProp_none {json : JVal} (hj : ValOK json) {key : Str} (hk : ¬ NoLower key) :
    getProp json key = none := by
  unfold getProp
  split
  · rename_i kvs
    cases hf : kvs.reverse.find? (fun kv => decide (kv.1 = key)) with
    | none => rfl
    | some kv =>
      exfalso
      apply hk
      have h1 := List.find?_some hf
      have h2 := List.mem_of_find?_eq_some hf
      simp only [decide_eq_true_eq] at h1
      rw [← h1]
      exact hj kvs rfl kv (by simpa using h2)
  · rfl

theorem parseJsonAndFinish_upper {s : Str} (hs : NoLower s) :
    parseJsonAndFinish s = .ok (finishClean s) := by
  unfold parseJsonAndFinish
  split
  · cases hj : jsonParse s with
    | none => rfl
    | some json =>
      have hv := jsonParse_ok hs hj
      have h1 : getProp json "ticketId".toList = none :=
        getProp_none hv (fun h => absurd (h 't' (by decide)) (by decide))
      have h2 : getProp json "id".toList = none :=
        getProp_none hv (fun h => absurd (h 'i' (by decide)) (by decide))
      simp only [h1, h2, truthy]
      rfl
  · rfl

theorem mem_of_mem_split {sep : Char} : ∀ (s p : Str), p ∈ split sep s → ∀ c ∈ p, c ∈ s := by
  intro s
  induction s with
  | nil =>
    intro p hp c hc
    simp only [split, List.mem_singleton] at hp
    subst hp
    exact hc
  | cons a s ih =>
    intro p hp c hc
    by_cases ha : a = sep
    · simp only [split, ha, if_true, List.mem_cons] at hp
      rcases hp with rfl | hp
      · simp at hc
      · exact List.mem_cons_of_mem _ (ih p hp c hc)
    · obtain ⟨q, qs, h1, h2⟩ := split_cons_ne sep s ha
      rw [h2] at hp
      rcases List.mem_cons.mp hp with rfl | hp
      · rcases List.mem_cons.mp hc with rfl | hc
        · simp
        · exact List.mem_cons_of_mem _ (ih q (by rw [h1]; simp) c hc)
      · exact List.mem_cons_of_mem _ (ih p (by rw [h1]; exact List.mem_cons_of_mem _ hp) c hc)

theorem noLower_lastUrlSegment {s : Str} (hs : NoLower s) : NoLower (lastUrlSegment s) := by
  unfold lastUrlSegment
  split
  · split
    · rename_i p hp
      have hmem : p ∈ split '/' s := by
        have := List.mem_of_find?_eq_some hp
        simpa using this
      exact fun c hc => hs c (mem_of_mem_split s p hmem c hc)
    · exact hs
  · exact hs

theorem noLower_stripEventPrefix {s : Str} (hs : NoLower s) : NoLower (stripEventPrefix s) := by
  unfold stripEventPrefix
  split
  · unfold replaceEventPrefix
    split
    · have hdrop : NoLower (s.drop 7) := fun c hc => hs c (List.mem_of_mem_drop hc)
      split
      · intro c hc; simp at hc
      · rename_i c rest hcr
        rw [hcr] at hdrop
        split
        · exact fun x hx => hdrop x (List.mem_cons_of_mem _ hx)
        · exact hdrop
    · exact hs
  · exact hs

/-- On a text without lower-case letters `parseScannedText` returns. -/
theorem parseScannedText_upper {x : Str} (hx : toUpperCase x = x) :
    ∃ y, parseScannedText x = .ok y := by
  have hno : NoLower x := by
    intro c hc
    unfold toUpperCase at hx
    obtain ⟨i, hi, rfl⟩ := List.getElem_of_mem hc
    have := congrArg (fun l => l[i]?) hx
    simpa [hi] using this
  have htrim : NoLower (trim x) := by
    intro c hc
    apply hno
    unfold trim at hc
    exact (List.dropWhile_sublist _).subset ((List.rdropWhile_prefix _ _).subset hc)
  unfold parseScannedText
  split
  · exact ⟨_, rfl⟩
  · exact ⟨_, parseJsonAndFinish_upper
      (noLower_lastUrlSegment (noLower_stripEventPrefix htrim))⟩

/-- C5 (amended): for a canonical key `x` whose normal form does not start with
the event prefix `IFI2026`, `parseScannedText` returns on `x`, returns its own
result on that result, and normalising twice equals normalising once. -/
theorem parseScannedText_idempotent_without_prefix (x : Str) (hx : IsCanonicalKey x)
    (hp : ∀ y, parseScannedText x = .ok y → startsWith y eventPrefix = false) :
    ∃ y, parseScannedText x = .ok y ∧ parseScannedText y = .ok y ∧
      (parseScannedText x).bind parseScannedText = parseScannedText x := by
  obtain ⟨y, hy⟩ := parseScannedText_upper hx.2
  have hfix : parseScannedText y = .ok y :=
    parseScannedText_fixed (parseScannedText_upperAlnum hy) (hp y hy)
  refine ⟨y, hy, hfix, ?_⟩
  rw [hy]
  exact hfix

/-- C5 (amended) at `x = "AB12"`. -/
theorem parseScannedText_idempotent_without_prefix_witness :
    IsCanonicalKey "AB12".toList ∧
    ∃ y, parseScannedText "AB12".toList = .ok y ∧ parseScannedText y = .ok y ∧
      (parseScannedText "AB12".toList).bind parseScannedText =
        parseScannedText "AB12".toList :=
  ⟨⟨by decide, by decide⟩,
   parseScannedText_idempotent_without_prefix "AB12".toList ⟨by decide, by decide⟩
     (fun y hy => by
        have h : parseScannedText "AB12".toList = .ok "AB12".toList := rfl
        rw [h] at hy
        cases hy
        decide)⟩

/-! ## C11: scans that check nobody in -/

theorem mapGet_eq_none_of_not_has {m : DataMap} {k : Str} (h : mapHas m k = false) :
    mapGet m k = none := by
  cases hg : mapGet m k with
  | none => rfl
  | some e =>
    have hk : k ∈ mapKeys m := (mapGet_isSome_iff m k).mp (by simp [hg])
    rw [(mapHas_iff m k).mpr hk] at h
    cases h

/-- When the trimmed, upper-cased scan is no key, the normaliser returns `tid`
and `tid` is no key either, `handleCheckIn` shows Not Found, keeps the state and
writes nothing. -/
theorem handleCheckIn_notFound (st : AppState) (scan tid : Str) (now : Timestamp)
    (writeOk : Bool) (hdirect : mapHas st.dataMap (toUpperCase (trim scan)) = false)
    (hnorm : parseScannedText scan = .ok tid) (hkey : mapHas st.dataMap tid = false) :
    handleCheckIn st scan now writeOk =
      .ok { state := st, scanResult := .notFound tid, updates := [] } := by
  have hres : resolveTicket st.dataMap scan = .ok tid := by
    simp only [resolveTicket, hdirect, Bool.false_eq_true, if_false, hnorm]
  unfold handleCheckIn
  simp only [hres, mapGet_eq_none_of_not_has hkey]

/-- When the scan resolves to an entry that is already checked in,
`handleCheckIn` shows Already Checked In with the stored time, keeps the state
and writes nothing. -/
theorem handleCheckIn_alreadyCheckedIn (st : AppState) (scan tid : Str) (entry : Entry)
    (now : Timestamp) (writeOk : Bool) (hres : resolveTicket st.dataMap scan = .ok tid)
    (hget : mapGet st.dataMap tid = some entry) (hin : entry.data.checkedIn = true) :
    handleCheckIn st scan now writeOk =
      .ok { state := st
            scanResult := .alreadyCheckedIn entry.data.checkInTime entry.data
            updates := [] } := by
  unfold handleCheckIn
  simp only [hres, hget, hin, if_true]

/-- When the trimmed, upper-cased scan is no key and the normaliser raises,
`handleCheckIn` raises too: no result is shown. -/
theorem handleCheckIn_raises (st : AppState) (scan : Str) (now : Timestamp) (writeOk : Bool)
    (e : JsError) (hdirect : mapHas st.dataMap (toUpperCase (trim scan)) = false)
    (hnorm : parseScannedText scan = .error e) :
    handleCheckIn st scan now writeOk = .error e := by
  have hres : resolveTicket st.dataMap scan = .error e := by
    simp only [resolveTicket, hdirect, Bool.false_eq_true, if_false, hnorm]
  unfold handleCheckIn
  simp only [hres]

/-- C11 (fails on the code): in the state built from one leader `A1`, the scan
`{"ticketId":123}` is no key in trimmed, upper-cased form, and the normaliser
raises a `TypeError` on it instead of returning a key; the exception is not
caught in `handleCheckIn`, which raises instead of showing Not Found, whether
the remote write would succeed or not. -/
theorem handleCheckIn_raises_instead_of_notFound :
    mapHas (fetchData oneLeaderDocs).dataMap
      (toUpperCase (trim "\x7b\"ticketId\":123\x7d".toList)) = false ∧
    parseScannedText "\x7b\"ticketId\":123\x7d".toList = .error .typeError ∧
    handleCheckIn (fetchData oneLeaderDocs) "\x7b\"ticketId\":123\x7d".toList ⟨100, 0⟩ true =
      .error .typeError ∧
    handleCheckIn (fetchData oneLeaderDocs) "\x7b\"ticketId\":123\x7d".toList ⟨100, 0⟩ false =
      .error .typeError := by
  refine ⟨by decide, ?_, ?_, ?_⟩ <;> rfl

/-! ## C10: a toggle that misses the index -/

/-- C10 (fails on the code): the leader with stored ticket id `a1`, checked in at
second 50, is indexed under the key `A1`.  A toggle of its list record looks the
entry up under the raw id `a1`, finds none, alerts and writes nothing: the list
record is unchecked with `checkInTime` null and the counter drops to 0, while the
attendee's index entry is still checked in with time 50.  The second toggle
flips the list record and the counter back and leaves the index as it was. -/
theorem toggleCheckIn_misses_index_entry :
    displayRecords (fetchData lowerCaseCheckedDocs) = [lowerCaseCheckedRecord] ∧
    mapKeys (fetchData lowerCaseCheckedDocs).dataMap = ["A1".toList] ∧
    mapGet (fetchData lowerCaseCheckedDocs).dataMap lowerCaseCheckedRecord.ticketId = none ∧
    (toggleCheckIn (fetchData lowerCaseCheckedDocs) lowerCaseCheckedRecord ⟨100, 0⟩ true).alerted =
      true ∧
    (toggleCheckIn (fetchData lowerCaseCheckedDocs) lowerCaseCheckedRecord ⟨100, 0⟩ true).updates =
      [] ∧
    displayRecords (toggled (fetchData lowerCaseCheckedDocs) lowerCaseCheckedRecord ⟨100, 0⟩ true) =
      [lowerCaseUncheckedRecord] ∧
    (lowerCaseUncheckedRecord.checkedIn, lowerCaseUncheckedRecord.checkInTime) = (false, none) ∧
    (mapGet (toggled (fetchData lowerCaseCheckedDocs) lowerCaseCheckedRecord ⟨100, 0⟩ true).dataMap
        (cleanId lowerCaseCheckedRecord.ticketId)).map
      (fun e => (e.data.ticketId, e.data.checkedIn, e.data.checkInTime)) =
      some ("a1".toList, true, some ⟨50, 0⟩) ∧
    (toggled (fetchData lowerCaseCheckedDocs) lowerCaseCheckedRecord ⟨100, 0⟩ true).stats =
      { total := 1, checkedIn := 0 } ∧
    (displayRecords
        (toggled (toggled (fetchData lowerCaseCheckedDocs) lowerCaseCheckedRecord ⟨100, 0⟩ true)
          lowerCaseUncheckedRecord ⟨200, 0⟩ true)).map
      (fun r => (r.ticketId, r.checkedIn, r.checkInTime)) =
      [("a1".toList, true, some ⟨200, 0⟩)] ∧
    (indexRecords
        (toggled (toggled (fetchData lowerCaseCheckedDocs) lowerCaseCheckedRecord ⟨100, 0⟩ true)
          lowerCaseUncheckedRecord ⟨200, 0⟩ true)).map
      (fun r => (r.ticketId, r.checkedIn, r.checkInTime)) =
      [("a1".toList, true, some ⟨50, 0⟩)] ∧
    (toggled (toggled (fetchData lowerCaseCheckedDocs) lowerCaseCheckedRecord ⟨100, 0⟩ true)
        lowerCaseUncheckedRecord ⟨200, 0⟩ true).stats = { total := 1, checkedIn := 1 } := by
  refine ⟨?_, ?_, ?_, ?_, ?_, ?_, ?_, ?_, ?_, ?_, ?_, ?_⟩ <;> decide

end EcellCheckin
